import Mathlib

/-!
Verification of the project-assembly pipeline of the `js-generator`
repository (sources: `src/js-generator.js` and the richer unnamed
generator script `src/unnamed/part_000`).

The development shallowly embeds the JavaScript code:

* JavaScript objects are modelled as association lists kept in JS
  own-property enumeration order (array-index keys first in ascending
  numeric order, then string keys in insertion order), which is the
  order `Object.keys` and `JSON.stringify` observe.
* String keys are compared the way `Array.prototype.sort`'s default
  comparator compares them: lexicographically on UTF-16 code units.
* `addScriptsToPackageJson`, `modulePackageJson`, the `runCommand`
  tokenizer, and the `createProject` pipeline are translated directly
  from the source; `JSON.stringify(·, null, 2)` / `JSON.parse` (platform
  built-ins used by the source) are modelled by an executable
  serializer and parser.
-/

namespace JsGen

/-! ## UTF-16 code units and the default sort order of string keys -/

/-- The UTF-16 code units of one character: scalar values below `0x10000`
are a single unit, the rest become a surrogate pair. -/
def utf16Char (c : Char) : List Nat :=
  if c.toNat < 0x10000 then [c.toNat]
  else [0xD800 + (c.toNat - 0x10000) / 0x400, 0xDC00 + (c.toNat - 0x10000) % 0x400]

/-- The UTF-16 code units of a string. -/
def utf16 (s : String) : List Nat := s.data.flatMap utf16Char

/-- Lexicographic strict order on code-unit sequences.  This is exactly
the comparison `a < b` performs on JS strings. -/
def lexLt : List Nat → List Nat → Bool
  | [], [] => false
  | [], _ :: _ => true
  | _ :: _, [] => false
  | a :: as, b :: bs => if a < b then true else if b < a then false else lexLt as bs

/-- `a` sorts strictly before `b` under the default (code-unit ordinal)
string comparison used by `Array.prototype.sort`. -/
def keyLt (a b : String) : Bool := lexLt (utf16 a) (utf16 b)

/-- Non-strict code-unit order, the `le` relation realised by a
comparison-based sort whose comparator is the default one. -/
def keyLe (a b : String) : Bool := !keyLt b a

/-! ## Array-index keys and JS own-property enumeration order -/

/-- Decimal digit characters of `n` (most significant first), written
with explicit fuel so that it evaluates by kernel reduction. -/
def natDigitsGo : Nat → Nat → List Char
  | 0, _ => []
  | fuel + 1, n =>
    if n < 10 then [Nat.digitChar n]
    else natDigitsGo fuel (n / 10) ++ [Nat.digitChar (n % 10)]

/-- Canonical decimal digit characters of `n`. -/
def natDigits (n : Nat) : List Char := natDigitsGo (n + 1) n

/-- Numeric value of a digit-character list (garbage on non-digits;
only used together with the canonicity check below). -/
def digitsVal (cs : List Char) : Nat := cs.foldl (fun a c => a * 10 + (c.toNat - 48)) 0

/-- ES "array index" test: `s` is the canonical decimal representation
of an integer `n` with `0 ≤ n < 2^32 - 1`; returns that `n`.  Such keys
are enumerated first, in ascending numeric order, by JS objects. -/
def arrayIndexVal (s : String) : Option Nat :=
  let cs := s.data
  let n := digitsVal cs
  if natDigits n = cs ∧ n < 4294967295 then some n else none

/-- `s` is an ES array-index key. -/
def isArrayIndex (s : String) : Bool := (arrayIndexVal s).isSome

/-- JS own-property enumeration order on two keys: array-index keys
come first, mutually sorted by numeric value; the relative order of two
non-index keys is unconstrained (it is their insertion order). -/
def enumOrd (a b : String) : Bool :=
  match arrayIndexVal a, arrayIndexVal b with
  | some i, some j => i < j
  | some _, none => true
  | none, some _ => false
  | none, none => true

/-! ## JSON values and JS objects

A JS object is modelled as its own-property table listed in
enumeration order (the order `Object.keys`, spread, and
`JSON.stringify` observe); well-formed tables have distinct keys and
satisfy `enumOrd` pairwise. -/

inductive Json where
  | str : String → Json
  | num : Int → Json
  | bool : Bool → Json
  | null : Json
  | arr : List Json → Json
  | obj : List (String × Json) → Json

/-- Property lookup (`o[k]`), `none` meaning `undefined`. -/
def jsLookup : List (String × Json) → String → Option Json
  | [], _ => none
  | (k', v') :: t, k => if k' = k then some v' else jsLookup t k

/-- Overwrite the value of an existing key, keeping its position:
assigning to a property that already exists does not move it. -/
def jsUpdate : List (String × Json) → String → Json → List (String × Json)
  | [], _, _ => []
  | (k', v') :: t, k, v => if k' = k then (k', v) :: t else (k', v') :: jsUpdate t k v

/-- Insert a key that is not yet present at its enumeration-order
position: an array-index key goes before the first entry that is a
non-index key or an index key with a larger value; any other key is
appended at the end (insertion order). -/
def jsInsertNew (n : Option Nat) (k : String) (v : Json) :
    List (String × Json) → List (String × Json)
  | [] => [(k, v)]
  | (k', v') :: t =>
    match n, arrayIndexVal k' with
    | some i, some j =>
      if i < j then (k, v) :: (k', v') :: t else (k', v') :: jsInsertNew n k v t
    | some _, none => (k, v) :: (k', v') :: t
    | none, _ => (k', v') :: jsInsertNew n k v t

/-- Property creation/assignment `o[k] = v` on the enumeration-ordered
table. -/
def jsInsert (l : List (String × Json)) (k : String) (v : Json) : List (String × Json) :=
  if (jsLookup l k).isSome then jsUpdate l k v else jsInsertNew (arrayIndexVal k) k v l

/-- Assign a sequence of properties into a table, left to right. -/
def insertAll (init ps : List (String × Json)) : List (String × Json) :=
  List.foldl (fun acc p => jsInsert acc p.1 p.2) init ps

/-- Spread one object into another: `{...a, ...b}` assigns every
property of `a` then every property of `b` into a fresh object. -/
def spreadMerge (a b : List (String × Json)) : List (String × Json) :=
  insertAll (insertAll [] a) b

/-- Keys of a property table. -/
def keysOf (l : List (String × Json)) : List String := l.map (fun p => p.1)

/-- The non-strict code-unit order as a relation, for sorting. -/
def KeyLeR (a b : String) : Prop := keyLe a b = true

instance : DecidableRel KeyLeR := fun a b => instDecidableEqBool (keyLe a b) true

/-- `Object.keys(o).sort()`: the keys sorted ascending by the default
(code-unit) comparator.  The keys of an object are distinct and the
order is total, so the sorted permutation is unique and the choice of
sorting algorithm is immaterial; we use insertion sort because it
evaluates by kernel reduction. -/
def sortKeys (ks : List String) : List String := List.insertionSort KeyLeR ks

/-- Well-formed property table: distinct keys, listed in enumeration
order.  Every table reachable from an actual JS object satisfies this. -/
def TableWF (l : List (String × Json)) : Prop :=
  (keysOf l).Nodup ∧ l.Pairwise (fun p q => enumOrd p.1 q.1 = true)

/-! ## The manifest operations of the source -/

/-- `packageJson.scripts` as spread by the source: an absent field
spreads as the empty object.  (Manifests whose `scripts` field holds a
non-object are outside the modelled domain and read as empty too; the
theorems below restrict to the object/absent case.) -/
def scriptsOfFields (fields : List (String × Json)) : List (String × Json) :=
  match jsLookup fields "scripts" with
  | some (Json.obj s) => s
  | _ => []

/-- The `scripts` table of a manifest value. -/
def scriptsOf (m : Json) : List (String × Json) :=
  match m with
  | Json.obj fields => scriptsOfFields fields
  | _ => []

/-- The reduce of the source: rebuild the scripts object by inserting
`(key, merged[key])` for each sorted key in order, starting from `{}`. -/
def rebuiltScripts (merged : List (String × Json)) : List (String × Json) :=
  insertAll [] ((sortKeys (keysOf merged)).map (fun k => (k, (jsLookup merged k).getD Json.null)))

/-- Translation of `addScriptsToPackageJson` (identical in both source
files) acting on the parsed manifest: merge the additions over the
current `scripts` with `{...packageJson.scripts, ...scripts}`, sort the
keys with `Object.keys(..).sort()`, rebuild the object by inserting the
keys in sorted order, and store it back in the `scripts` field.  The
persisted file is the serialization of the returned value. -/
def addScriptsToPackageJson (packageJson : Json) (scripts : List (String × Json)) : Json :=
  match packageJson with
  | Json.obj fields =>
    Json.obj (jsInsert fields "scripts"
      (Json.obj (rebuiltScripts (spreadMerge (scriptsOfFields fields) scripts))))
  | other => other

/-- Translation of `modulePackageJson` (part_000) acting on the parsed
manifest: set `packageJson.type = "module"` and write the file back. -/
def modulePackageJson (packageJson : Json) : Json :=
  match packageJson with
  | Json.obj fields => Json.obj (jsInsert fields "type" (Json.str "module"))
  | other => other

/-! ## The `runCommand` tokenizer

`runCommand` splits the command line with
`command.match(/[^"\s]+|"[^"]+"/g)` and passes the first token to
`spawn` as the executable and the rest as arguments.  The global
matcher scans left to right: at each position it matches either a
maximal run of characters that are neither `"` nor whitespace, or a
double-quoted substring with at least one inner character (quotes
kept); where neither alternative matches it advances one character. -/

/-- The JS `\s` (whitespace) character class used by the regex. -/
def jsWhitespace (c : Char) : Bool :=
  c = '\t' || c = '\n' || c.toNat = 11 || c.toNat = 12 || c = '\r' || c = ' ' ||
  c.toNat = 0xA0 || c.toNat = 0x1680 || (0x2000 ≤ c.toNat && c.toNat ≤ 0x200A) ||
  c.toNat = 0x2028 || c.toNat = 0x2029 || c.toNat = 0x202F || c.toNat = 0x205F ||
  c.toNat = 0x3000 || c.toNat = 0xFEFF

/-- A character the first regex alternative `[^"\s]+` accepts. -/
def isTokenChar (c : Char) : Bool := !(c = '"') && !jsWhitespace c

/-- Split a character list at the first double quote (the quote, if
any, starts the second component). -/
def splitUntilQuote : List Char → List Char × List Char
  | [] => ([], [])
  | c :: t =>
    if c = '"' then ([], c :: t)
    else (c :: (splitUntilQuote t).1, (splitUntilQuote t).2)

/-- One left-to-right pass of the global matcher
`/[^"\s]+|"[^"]+"/g`.  The fuel only bounds the recursion (one unit
per scan step); `input.length + 1` always suffices.  At a `"` the
second alternative matches iff a closing quote exists
(`(splitUntilQuote rest).2` is nonempty — its head is that closing
quote by construction, and its tail is the input after it) with at
least one character before it; otherwise the matcher advances one
position. -/
def regexTokensGo : Nat → List Char → List (List Char)
  | 0, _ => []
  | _ + 1, [] => []
  | fuel + 1, c :: rest =>
    if c = '"' then
      if (splitUntilQuote rest).2.isEmpty then regexTokensGo fuel rest
      else if (splitUntilQuote rest).1.isEmpty then regexTokensGo fuel rest
      else ('"' :: ((splitUntilQuote rest).1 ++ ['"']))
        :: regexTokensGo fuel (splitUntilQuote rest).2.tail
    else if jsWhitespace c then regexTokensGo fuel rest
    else (c :: rest.takeWhile isTokenChar) :: regexTokensGo fuel (rest.dropWhile isTokenChar)

/-- All tokens `command.match(/[^"\s]+|"[^"]+"/g)` produces (the empty
list standing for a `null` match result). -/
def regexTokens (l : List Char) : List (List Char) := regexTokensGo (l.length + 1) l

/-- The executable and argument vector `runCommand` hands to `spawn`:
the first token and the remaining tokens.  `none` models the crash on
a command line with no token at all (`match` returns `null` and
`args.shift()` throws). -/
def runCommandArgs (command : String) : Option (List Char × List (List Char)) :=
  match regexTokens command.data with
  | [] => none
  | cmd :: args => some (cmd, args)

/-- Modelled from the spec: the claimed tokenization, "splitting on
whitespace while preserving double-quoted substrings as single tokens"
— a word extends until whitespace at quote depth zero, double quotes
toggling the depth and remaining part of the word. -/
def claimWord : List Char → Bool → List Char × List Char
  | [], _ => ([], [])
  | c :: r, q =>
    if !q && jsWhitespace c then ([], c :: r)
    else (c :: (claimWord r (if c = '"' then !q else q)).1,
          (claimWord r (if c = '"' then !q else q)).2)

/-- Modelled from the spec: all tokens of the claimed tokenization. -/
def claimTokensGo : Nat → List Char → List (List Char)
  | 0, _ => []
  | _ + 1, [] => []
  | fuel + 1, c :: rest =>
    if jsWhitespace c then claimTokensGo fuel rest
    else (c :: (claimWord rest (if c = '"' then true else false)).1)
      :: claimTokensGo fuel (claimWord rest (if c = '"' then true else false)).2

/-- Modelled from the spec: the claimed tokenization of a whole line. -/
def claimTokens (l : List Char) : List (List Char) := claimTokensGo (l.length + 1) l

/-- The list is empty or starts with whitespace (a word boundary). -/
def headIsWS : List Char → Bool
  | [] => true
  | d :: _ => jsWhitespace d

/-- Command lines on which the regex and the claimed split agree:
every maximal non-whitespace run is either quote-free or one
double-quoted substring with nonempty content. -/
def commandWFGo : Nat → List Char → Bool
  | 0, _ => false
  | _ + 1, [] => true
  | fuel + 1, c :: rest =>
    if jsWhitespace c then commandWFGo fuel rest
    else if c = '"' then
      if (splitUntilQuote rest).2.isEmpty then false
      else
        !(splitUntilQuote rest).1.isEmpty &&
        headIsWS (splitUntilQuote rest).2.tail &&
        commandWFGo fuel (splitUntilQuote rest).2.tail
    else
      headIsWS (rest.dropWhile isTokenChar) &&
      commandWFGo fuel (rest.dropWhile isTokenChar)

/-- Well-formed placement of quotes in a command line. -/
def commandWellFormed (l : List Char) : Bool := commandWFGo (l.length + 1) l

/-! ## The `createProject` pipeline of `part_000`

The pipeline is modelled as the ordered list of externally visible
actions each source function performs, tagged with the name of the
source function (the Step) performing them, plus an interpreter that
executes the actions in order against an abstract state, mirroring the
sequential `await` chain and the `try`/`catch` + `process.exit(1)`
error propagation of the source. -/

inductive Lang where
  | javascript
  | typescript
deriving DecidableEq

/-- The configuration record the prompt layer delivers. -/
structure Config where
  projectName : String
  language : Lang
  useTailwind : Bool
  useGit : Bool

/-- The derived flag of `createProject`: initialized `true`, set to
`false` exactly when the project is TypeScript with Tailwind. -/
def singleDevScript (cfg : Config) : Bool :=
  if cfg.language = Lang.typescript ∧ cfg.useTailwind then false else true

/-- One externally visible operation of a Step.  `runCmd` is a
`runCommand` invocation; `npmInit` is `runCommand "npm init -y"`,
which materializes the manifest on success; `setModuleType` is the
`modulePackageJson` read-modify-write; `mergeScripts` is an
`addScriptsToPackageJson` call, `awaited = false` marking the one call
whose promise the source does not await; `writePath` is a file or
directory created/overwritten inside the project. -/
inductive Action where
  | mkdirRoot
  | npmInit
  | runCmd (cmd : String)
  | setModuleType
  | mergeScripts (adds : List (String × Json)) (awaited : Bool)
  | writePath (path : String)

/-- A short printable label for an action (used to state facts about
executed prefixes without needing decidable equality of `Json`). -/
def actionLabel : Action → String
  | Action.mkdirRoot => "mkdir"
  | Action.npmInit => "npm init -y"
  | Action.runCmd c => c
  | Action.setModuleType => "set-module-type"
  | Action.mergeScripts _ _ => "merge-scripts"
  | Action.writePath p => "write " ++ p

def isMergeScripts : Action → Bool
  | Action.mergeScripts _ _ => true
  | _ => false

def isUnawaitedMerge : Action → Bool
  | Action.mergeScripts _ false => true
  | _ => false

def isSetModuleType : Action → Bool
  | Action.setModuleType => true
  | _ => false

def isNpmInit : Action → Bool
  | Action.npmInit => true
  | _ => false

/-- Actions of `createNpmProject`: `npm init -y`, the lint/format
tooling install, `modulePackageJson`, then the `{format, lint}`
merge.  (In `src/js-generator.js` the same function omits the
`modulePackageJson` call; this models `part_000`.) -/
def createNpmProjectTrace : List (String × Action) :=
  [("createNpmProject", Action.npmInit),
   ("createNpmProject", Action.runCmd
     "npm install --save-dev eslint prettier eslint-config-prettier eslint-config-airbnb eslint-plugin-import"),
   ("createNpmProject", Action.setModuleType),
   ("createNpmProject", Action.mergeScripts
     [("format", Json.str "prettier --write ."), ("lint", Json.str "eslint .")] true)]

/-- Actions of `setupTypescript`. -/
def setupTypescriptTrace (singleDev : Bool) : List (String × Action) :=
  ("setupTypescript", Action.runCmd
    "npm install --save-dev typescript @types/node @typescript-eslint/parser @typescript-eslint/eslint-plugin") ::
  ("setupTypescript", Action.writePath "tsconfig.json") ::
  ("setupTypescript", Action.writePath "src") ::
  (if singleDev then
    [("setupTypescript", Action.mergeScripts
      [("build", Json.str "tsc"), ("dev", Json.str "tsc -w"),
       ("typecheck", Json.str "tsc -b")] true)]
   else
    [("setupTypescript", Action.mergeScripts
      [("dev:typescript", Json.str "tsc -w")] true)]) ++
  [("setupTypescript", Action.writePath "src/app.ts")]

/-- Actions of `setupTailwindcss`.  In the `singleDevScript` branch
the `{css}` merge call is not awaited (no `await` on line 235 of the
source); the `{"dev:tailwind"}` merge in the other branch is awaited. -/
def setupTailwindcssTrace (lang : Lang) (singleDev : Bool) : List (String × Action) :=
  ("setupTailwindcss", Action.runCmd "npm install --save-dev tailwindcss") ::
  ("setupTailwindcss", Action.runCmd
    (if lang = Lang.typescript then "npx tailwindcss init --ts" else "npx tailwindcss init --esm")) ::
  ("setupTailwindcss", Action.writePath "src/styles") ::
  ("setupTailwindcss", Action.writePath
    (if lang = Lang.typescript then "tailwind.config.ts" else "tailwind.config.js")) ::
  ("setupTailwindcss", Action.writePath "src/styles/styles.css") ::
  ("setupTailwindcss", Action.writePath "index.html") ::
  (if singleDev then
    [("setupTailwindcss", Action.mergeScripts
      [("css", Json.str "tailwindcss -i ./src/styles.css -o ./build/output.css --watch")] false)]
   else
    [("setupTailwindcss", Action.mergeScripts
      [("dev:tailwind",
        Json.str "tailwindcss -i ./src/styles/tailwind.css -o ./build/output.css --watch")] true)]) ++
  [("setupTailwindcss", Action.runCmd "npm install --save-dev prettier-plugin-tailwindcss")]

/-- Actions of `createEslintConfig`. -/
def createEslintConfigTrace (lang : Lang) : List (String × Action) :=
  (if lang = Lang.javascript then
    [("createEslintConfig", Action.runCmd "npm install --save-dev eslint-config-airbnb")]
   else []) ++
  [("createEslintConfig", Action.writePath ".eslintrc.json")]

/-- Actions of `createPrettierConfig`. -/
def createPrettierConfigTrace : List (String × Action) :=
  [("createPrettierConfig", Action.writePath ".prettierrc.json")]

/-- Actions of `setupGit`. -/
def setupGitTrace (useGit : Bool) : List (String × Action) :=
  if useGit then
    [("setupGit", Action.writePath ".gitignore"),
     ("setupGit", Action.runCmd "git init"),
     ("setupGit", Action.runCmd "git add ."),
     ("setupGit", Action.runCmd "git commit -m \"Initial commit: project setup\""),
     ("setupGit", Action.runCmd "git checkout -b dev")]
  else []

/-- The ordered action list of one `createProject` run, translated
from the body of `createProject` in `part_000`. -/
def createProjectTrace (cfg : Config) : List (String × Action) :=
  ("createProject", Action.mkdirRoot) ::
  createNpmProjectTrace ++
  (if cfg.language = Lang.typescript ∧ cfg.useTailwind then
    [("createProject", Action.runCmd "npm install --save-dev npm-run-all"),
     ("createProject", Action.mergeScripts [("dev", Json.str "run-p dev:*")] true)]
   else []) ++
  (if cfg.language = Lang.typescript then setupTypescriptTrace (singleDevScript cfg) else []) ++
  (if cfg.useTailwind then setupTailwindcssTrace cfg.language (singleDevScript cfg) else []) ++
  createEslintConfigTrace cfg.language ++
  createPrettierConfigTrace ++
  setupGitTrace cfg.useGit

/-- Outcome of one external command, supplied by an oracle: exit with
a status code (`0` = success, as in the source's `code !== 0` test) or
a launch error whose message is the spawn error text. -/
inductive CmdRes where
  | ok
  | exit (code : Nat)
  | launchErr (msg : String)

/-- Abstract state a run mutates: whether the project directory was
created, the manifest file (none = not yet created), the project files
written, and the external commands attempted, in order. -/
structure PipeState where
  dirMade : Bool
  manifest : Option Json
  written : List String
  cmdsRun : List String

def pipeInit : PipeState := ⟨false, none, [], []⟩

/-- Semantics of a single action.  `npm install ...` commands are
modelled as not altering the modelled manifest fields (they touch only
`devDependencies`).  The unawaited merge is applied at its program
point; its missing `await` is a separate fact recorded in the trace
and judged under claim C8. -/
def stepAction (dirExists : Bool) (initManifest : Json) (oracle : String → CmdRes)
    (st : PipeState) (a : Action) : Except String PipeState :=
  match a with
  | Action.mkdirRoot =>
    if dirExists then Except.error "EEXIST: file already exists, mkdir"
    else Except.ok { st with dirMade := true }
  | Action.npmInit =>
    let st' := { st with cmdsRun := st.cmdsRun ++ ["npm init -y"] }
    match oracle "npm init -y" with
    | CmdRes.ok => Except.ok { st' with manifest := some initManifest }
    | CmdRes.exit code =>
      if code = 0 then Except.ok { st' with manifest := some initManifest }
      else Except.error ("Command \"npm init -y\" failed with exit code " ++ toString code)
    | CmdRes.launchErr m => Except.error m
  | Action.runCmd c =>
    let st' := { st with cmdsRun := st.cmdsRun ++ [c] }
    match oracle c with
    | CmdRes.ok => Except.ok st'
    | CmdRes.exit code =>
      if code = 0 then Except.ok st'
      else Except.error ("Command \"" ++ c ++ "\" failed with exit code " ++ toString code)
    | CmdRes.launchErr m => Except.error m
  | Action.setModuleType =>
    match st.manifest with
    | none => Except.error "File not found: package.json"
    | some m => Except.ok { st with manifest := some (modulePackageJson m) }
  | Action.mergeScripts adds _ =>
    match st.manifest with
    | none => Except.error "File not found: package.json"
    | some m => Except.ok { st with manifest := some (addScriptsToPackageJson m adds) }
  | Action.writePath p => Except.ok { st with written := st.written ++ [p] }

/-- Run actions in order; stop at the first failure, reporting the
failing entry's tag and raw error message together with the state and
the executed prefix. -/
def runActions (dirExists : Bool) (initManifest : Json) (oracle : String → CmdRes) :
    PipeState → List (String × Action) →
      PipeState × List (String × Action) × Option (String × String)
  | st, [] => (st, [], none)
  | st, (tag, a) :: rest =>
    match stepAction dirExists initManifest oracle st a with
    | Except.ok st' =>
      match runActions dirExists initManifest oracle st' rest with
      | (stf, ex, err) => (stf, (tag, a) :: ex, err)
    | Except.error msg => (st, [(tag, a)], some (tag, msg))

/-- Final outcome of a `createProject` call: the state, the executed
prefix, the process exit code and the error line printed.  A failure
inside `createNpmProject` is caught by that function's own
`try`/`catch` (message prefix "Error while creating npm project: ");
every other failure reaches `createProject`'s catch (prefix
"Error creating project: ").  Both call `process.exit(1)`. -/
structure RunOutcome where
  state : PipeState
  executed : List (String × Action)
  exitCode : Nat
  message : Option String

def createProjectRun (cfg : Config) (dirExists : Bool) (initManifest : Json)
    (oracle : String → CmdRes) : RunOutcome :=
  match runActions dirExists initManifest oracle pipeInit (createProjectTrace cfg) with
  | (st, ex, none) => ⟨st, ex, 0, none⟩
  | (st, ex, some (tag, msg)) =>
    if tag = "createNpmProject" then
      ⟨st, ex, 1, some ("Error while creating npm project: " ++ msg)⟩
    else
      ⟨st, ex, 1, some ("Error creating project: " ++ msg)⟩

/-! ## Substring containment (for statements about error messages) -/

/-- `needle` is a prefix of `hay`. -/
def leadsWith : List Char → List Char → Bool
  | [], _ => true
  | _ :: _, [] => false
  | a :: as, b :: bs => a = b && leadsWith as bs

/-- `needle` occurs contiguously in `hay`. -/
def containsChars (needle : List Char) : List Char → Bool
  | [] => needle.isEmpty
  | c :: t => leadsWith needle (c :: t) || containsChars needle t

/-- `needle` is a substring of `hay`. -/
def containsStr (hay needle : String) : Bool := containsChars needle.data hay.data

/-! ## The file-level `addScriptsToPackageJson` (claim C10)

The source first calls `fs.existsSync` and throws before any read or
write when the manifest file is missing. -/

inductive FsOp where
  | existsCheck
  | readPackageJson
  | writePackageJson
deriving DecidableEq

/-- `addScriptsToPackageJson` at the filesystem boundary: the file
state is `none` when `<projectPath>/package.json` does not exist.  The
returned list is the sequence of filesystem operations performed, and
the result is the new file state or the thrown error. -/
def addScriptsToPackageJsonFile (projectPath : String) (file : Option Json)
    (scripts : List (String × Json)) :
    List FsOp × Except String (Option Json) :=
  match file with
  | none =>
    ([FsOp.existsCheck],
     Except.error ("File not found: " ++ projectPath ++ "/package.json"))
  | some m =>
    ([FsOp.existsCheck, FsOp.readPackageJson, FsOp.writePackageJson],
     Except.ok (some (addScriptsToPackageJson m scripts)))

/-! ## Manifest persistence (claim C7)

`addScriptsToPackageJson` persists the manifest with
`fs.promises.writeFile(path, JSON.stringify(packageJson, null, 2))` and
reads it back with `JSON.parse` of `readFile(path, "utf8")` (part_000
lines 92-116).  We embed `JSON.stringify(v, null, 2)` and `JSON.parse`
at the character level; the UTF-8 encode/decode done by the `"utf8"`
file encoding is a bijection on well-formed strings and is left
implicit.  Numbers carry the `Int` values of the `Json` model, and the
parser reads integer number tokens; `\u` string escapes are read when
they denote a Unicode scalar value, which covers every escape the
serializer emits (its only `\u` escapes are control characters). -/

/-- Decimal digit character test (codes 48-57). -/
def isDigitChar (c : Char) : Bool := 48 ≤ c.toNat && c.toNat ≤ 57

/-- The insignificant whitespace characters of the JSON grammar:
space, tab, line feed, carriage return. -/
def jsonWS (c : Char) : Bool := c = ' ' || c = '\t' || c = '\n' || c = '\r'

/-- Skip insignificant whitespace, as `JSON.parse` does between tokens. -/
def skipWS (l : List Char) : List Char := l.dropWhile jsonWS

/-- `JSON.stringify` encoding of one character inside a quoted string:
quote and backslash are backslash-escaped, the named control characters
use their short escapes, the remaining control characters use a
lowercase-hex `\u00xx` escape, and every other character stands for
itself. -/
def escChar (c : Char) : List Char :=
  if c = '"' then ['\\', '"']
  else if c = '\\' then ['\\', '\\']
  else if c.toNat = 8 then ['\\', 'b']
  else if c.toNat = 9 then ['\\', 't']
  else if c.toNat = 10 then ['\\', 'n']
  else if c.toNat = 12 then ['\\', 'f']
  else if c.toNat = 13 then ['\\', 'r']
  else if c.toNat < 32 then
    ['\\', 'u', '0', '0', Nat.digitChar (c.toNat / 16), Nat.digitChar (c.toNat % 16)]
  else [c]

/-- `JSON.stringify` of a string value: quote, escaped body, quote. -/
def quoteChars (s : String) : List Char :=
  '"' :: (s.data.flatMap escChar ++ ['"'])

/-- `JSON.stringify` of an (integer) number value. -/
def intChars (n : Int) : List Char :=
  if n < 0 then '-' :: natDigits n.natAbs else natDigits n.natAbs

/-- The indentation emitted by `JSON.stringify(v, null, 2)`: `n` spaces. -/
def indentChars (n : Nat) : List Char := List.replicate n ' '

mutual
/-- `JSON.stringify(v, null, 2)` of a value placed at indentation level
`ind`: scalars print their token; a nonempty array or object opens its
bracket, puts each element on its own line indented two further spaces,
and closes the bracket at the enclosing indentation.  Object members
are emitted in the stored own-property (enumeration) order, the order
`JSON.stringify` observes. -/
def serVal : Nat → Json → List Char
  | _, Json.str s => quoteChars s
  | _, Json.num n => intChars n
  | _, Json.bool true => ['t', 'r', 'u', 'e']
  | _, Json.bool false => ['f', 'a', 'l', 's', 'e']
  | _, Json.null => ['n', 'u', 'l', 'l']
  | _, Json.arr [] => ['[', ']']
  | ind, Json.arr (x :: xs) =>
    '[' :: '\n' :: (indentChars (ind + 2) ++ (serVal (ind + 2) x ++
      (serItems (ind + 2) xs ++ ('\n' :: (indentChars ind ++ [']'])))))
  | _, Json.obj [] => ['\x7b', '\x7d']
  | ind, Json.obj (p :: ps) =>
    '\x7b' :: '\n' :: (indentChars (ind + 2) ++ (serMember (ind + 2) p ++
      (serMembers (ind + 2) ps ++ ('\n' :: (indentChars ind ++ ['\x7d'])))))

/-- One `"key": value` object member. -/
def serMember : Nat → String × Json → List Char
  | ind, p => quoteChars p.1 ++ (':' :: ' ' :: serVal ind p.2)

/-- The array items after the first, each preceded by a comma, a line
break and the item indentation. -/
def serItems : Nat → List Json → List Char
  | _, [] => []
  | ind, x :: xs => ',' :: '\n' :: (indentChars ind ++ (serVal ind x ++ serItems ind xs))

/-- The object members after the first, each preceded by a comma, a
line break and the member indentation. -/
def serMembers : Nat → List (String × Json) → List Char
  | _, [] => []
  | ind, p :: ps => ',' :: '\n' :: (indentChars ind ++ (serMember ind p ++ serMembers ind ps))
end

/-- Value of one hexadecimal digit of a `\uXXXX` escape. -/
def hexVal (c : Char) : Option Nat :=
  if 48 ≤ c.toNat ∧ c.toNat ≤ 57 then some (c.toNat - 48)
  else if 97 ≤ c.toNat ∧ c.toNat ≤ 102 then some (c.toNat - 87)
  else if 65 ≤ c.toNat ∧ c.toNat ≤ 70 then some (c.toNat - 55)
  else none

/-- The character denoted by a short escape `\e` in a JSON string. -/
def escCharInv (e : Char) : Option Char :=
  if e = '"' then some '"'
  else if e = '\\' then some '\\'
  else if e = '/' then some '/'
  else if e = 'b' then some (Char.ofNat 8)
  else if e = 'f' then some (Char.ofNat 12)
  else if e = 'n' then some '\n'
  else if e = 'r' then some (Char.ofNat 13)
  else if e = 't' then some '\t'
  else none

/-- Parse the body of a quoted JSON string after its opening quote:
the decoded characters and the input following the closing quote.
Escapes follow `JSON.parse`; a `\u` escape is read when it denotes a
Unicode scalar value (a surrogate-pair escape denotes a character our
`Char`-based model already stores decoded, and is never produced by
the serializer, whose `\u` escapes are control characters only).
Fuelled: each recursive call consumes at least one input character and
one unit of fuel. -/
def parseStringBody : Nat → List Char → Option (List Char × List Char)
  | 0, _ => none
  | _ + 1, [] => none
  | fuel + 1, c :: t =>
    if c = '"' then some ([], t)
    else if c = '\\' then
      match t with
      | [] => none
      | e :: t₂ =>
        if e = 'u' then
          match t₂ with
          | h₁ :: h₂ :: h₃ :: h₄ :: t₃ =>
            match hexVal h₁, hexVal h₂, hexVal h₃, hexVal h₄ with
            | some a, some b, some c', some d =>
              if ((a * 16 + b) * 16 + c') * 16 + d < 55296 ∨
                  (57343 < ((a * 16 + b) * 16 + c') * 16 + d ∧
                    ((a * 16 + b) * 16 + c') * 16 + d < 1114112) then
                match parseStringBody fuel t₃ with
                | some (s, r) => some (Char.ofNat (((a * 16 + b) * 16 + c') * 16 + d) :: s, r)
                | none => none
              else none
            | _, _, _, _ => none
          | _ => none
        else
          match escCharInv e with
          | some d =>
            match parseStringBody fuel t₂ with
            | some (s, r) => some (d :: s, r)
            | none => none
          | none => none
    else if c.toNat < 32 then none
    else
      match parseStringBody fuel t with
      | some (s, r) => some (c :: s, r)
      | none => none

/-- Parse a nonempty run of decimal digits as a natural number. -/
def parseNatTok (l : List Char) : Option (Nat × List Char) :=
  if (l.takeWhile isDigitChar).isEmpty then none
  else some (digitsVal (l.takeWhile isDigitChar), l.dropWhile isDigitChar)

mutual
/-- `JSON.parse` of one JSON value (fuelled; every recursive call
decreases the fuel, and fuel exceeding the input length always
suffices).  Leading insignificant whitespace is skipped.  Object
members are collected in text order and then entered into the object
table with `insertAll`, mirroring property creation order on a
JavaScript object (array-index keys first, later duplicates
overwriting); array items keep text order.  Number tokens are read as
integers, a restriction of the JSON number grammar that is exact on
serializer outputs. -/
def parseVal : Nat → List Char → Option (Json × List Char)
  | 0, _ => none
  | fuel + 1, l =>
    match skipWS l with
    | [] => none
    | c :: t =>
      if c = '"' then
        match parseStringBody (t.length + 1) t with
        | some (cs, r) => some (Json.str (String.mk cs), r)
        | none => none
      else if c = '\x7b' then
        match skipWS t with
        | [] => none
        | d :: r =>
          if d = '\x7d' then some (Json.obj [], r)
          else
            match parseMembers fuel t with
            | some (ps, r₂) => some (Json.obj (insertAll [] ps), r₂)
            | none => none
      else if c = '[' then
        match skipWS t with
        | [] => none
        | d :: r =>
          if d = ']' then some (Json.arr [], r)
          else
            match parseItems fuel t with
            | some (xs, r₂) => some (Json.arr xs, r₂)
            | none => none
      else if c = 't' then
        match t with
        | c₁ :: c₂ :: c₃ :: r =>
          if c₁ = 'r' ∧ c₂ = 'u' ∧ c₃ = 'e' then some (Json.bool true, r) else none
        | _ => none
      else if c = 'f' then
        match t with
        | c₁ :: c₂ :: c₃ :: c₄ :: r =>
          if c₁ = 'a' ∧ c₂ = 'l' ∧ c₃ = 's' ∧ c₄ = 'e' then
            some (Json.bool false, r)
          else none
        | _ => none
      else if c = 'n' then
        match t with
        | c₁ :: c₂ :: c₃ :: r =>
          if c₁ = 'u' ∧ c₂ = 'l' ∧ c₃ = 'l' then some (Json.null, r) else none
        | _ => none
      else if c = '-' then
        match parseNatTok t with
        | some (m, r) => some (Json.num (-(m : Int)), r)
        | none => none
      else if isDigitChar c then
        match parseNatTok (c :: t) with
        | some (m, r) => some (Json.num ((m : Int)), r)
        | none => none
      else none

/-- `JSON.parse` of one-or-more object members - whitespace, quoted
key, whitespace, colon, value - continuing after a comma and finishing
at a closing brace, which is consumed. -/
def parseMembers : Nat → List Char → Option (List (String × Json) × List Char)
  | 0, _ => none
  | fuel + 1, l =>
    match skipWS l with
    | [] => none
    | c :: t =>
      if c = '"' then
        match parseStringBody (t.length + 1) t with
        | some (k, r₁) =>
          match skipWS r₁ with
          | [] => none
          | d :: r₂ =>
            if d = ':' then
              match parseVal fuel r₂ with
              | some (v, r₃) =>
                match skipWS r₃ with
                | [] => none
                | e :: r₄ =>
                  if e = ',' then
                    match parseMembers fuel r₄ with
                    | some (ps, r₅) => some ((String.mk k, v) :: ps, r₅)
                    | none => none
                  else if e = '\x7d' then some ([(String.mk k, v)], r₄)
                  else none
              | none => none
            else none
        | none => none
      else none

/-- `JSON.parse` of one-or-more array items, continuing after a comma
and finishing at a closing bracket, which is consumed. -/
def parseItems : Nat → List Char → Option (List Json × List Char)
  | 0, _ => none
  | fuel + 1, l =>
    match parseVal fuel l with
    | some (v, r₁) =>
      match skipWS r₁ with
      | [] => none
      | d :: r₂ =>
        if d = ',' then
          match parseItems fuel r₂ with
          | some (xs, r₃) => some (v :: xs, r₃)
          | none => none
        else if d = ']' then some ([v], r₂)
        else none
    | none => none
end

/-- The manifest write: the character content
`JSON.stringify(m, null, 2)` that `fs.promises.writeFile` puts on
disk. -/
def jsonWrite (m : Json) : List Char := serVal 0 m

/-- The manifest read: `JSON.parse` of the file content - parse one
value and require only whitespace to follow.  The seed fuel exceeds
the input length, which always suffices. -/
def jsonRead (l : List Char) : Option Json :=
  match parseVal (l.length + 1) l with
  | some (v, r) => if (skipWS r).isEmpty then some v else none
  | none => none

/-- The values of the `Json` model that denote actual JavaScript
values: at every object node the key table is duplicate-free and
stored in own-property enumeration order.  Every manifest the
generator builds satisfies this (`insertAll` establishes and preserves
it); a table violating it is not expressible as a JavaScript object at
all. -/
inductive JsonWF : Json → Prop where
  | str (s : String) : JsonWF (Json.str s)
  | num (n : Int) : JsonWF (Json.num n)
  | bool (b : Bool) : JsonWF (Json.bool b)
  | null : JsonWF Json.null
  | arr (xs : List Json) : (∀ x ∈ xs, JsonWF x) → JsonWF (Json.arr xs)
  | obj (ps : List (String × Json)) : (keysOf ps).Nodup →
      ps.Pairwise (fun p q => enumOrd p.1 q.1 = true) →
      (∀ p ∈ ps, JsonWF p.2) → JsonWF (Json.obj ps)

/-- The first character, if any, is not a decimal digit: the context
that follows a serialized number token. -/
def noDigitHead : List Char → Bool
  | [] => true
  | c :: _ => !isDigitChar c

/-- A concrete manifest in the shape the generator builds, used to
instantiate the round-trip theorem. -/
def manifestExample : Json :=
  Json.obj
    [("name", Json.str "demo-app"),
     ("version", Json.str "1.0.0"),
     ("type", Json.str "module"),
     ("scripts",
      Json.obj
        [("build", Json.str "tsc"),
         ("dev", Json.str "run-p dev:*"),
         ("lint", Json.str "eslint . --ext .ts")]),
     ("private", Json.bool true),
     ("licenses", Json.arr [Json.str "MIT", Json.num 2024]),
     ("extra", Json.null),
     ("offset", Json.num (-7))]

/-! ### End of definitions -/

/-! ## Order theory of the code-unit key order -/

theorem lexLt_asymm : ∀ (a b : List Nat), lexLt a b = true → lexLt b a = false
  | [], [] => by simp [lexLt]
  | [], _ :: _ => by simp [lexLt]
  | _ :: _, [] => by simp [lexLt]
  | a :: as, b :: bs => by
    simp only [lexLt]
    intro h
    rcases Nat.lt_trichotomy a b with h1 | h1 | h1
    · rw [if_neg (show ¬ b < a by omega), if_pos h1]
    · subst h1
      rw [if_neg (lt_irrefl a), if_neg (lt_irrefl a)] at h ⊢
      exact lexLt_asymm as bs h
    · rw [if_neg (show ¬ a < b by omega), if_pos h1] at h
      exact absurd h (by simp)

theorem lexLt_trans : ∀ (a b c : List Nat),
    lexLt a b = true → lexLt b c = true → lexLt a c = true
  | [], b, [] => by cases b <;> simp [lexLt]
  | [], [], _ :: _ => by simp [lexLt]
  | [], _ :: _, _ :: _ => by simp [lexLt]
  | _ :: _, [], _ => by simp [lexLt]
  | _ :: _, _ :: _, [] => by simp [lexLt]
  | a :: as, b :: bs, c :: cs => by
    simp only [lexLt]
    intro h1 h2
    rcases Nat.lt_trichotomy a b with ha | ha | ha
    · rcases Nat.lt_trichotomy b c with hb | hb | hb
      · rw [if_pos (show a < c by omega)]
      · subst hb; rw [if_pos ha]
      · rw [if_neg (show ¬ b < c by omega), if_pos hb] at h2
        exact absurd h2 (by simp)
    · subst ha
      rw [if_neg (lt_irrefl a), if_neg (lt_irrefl a)] at h1
      rcases Nat.lt_trichotomy a c with hb | hb | hb
      · rw [if_pos hb]
      · subst hb
        rw [if_neg (lt_irrefl a), if_neg (lt_irrefl a)] at h2 ⊢
        exact lexLt_trans as bs cs h1 h2
      · rw [if_neg (show ¬ a < c by omega), if_pos hb] at h2
        exact absurd h2 (by simp)
    · rw [if_neg (show ¬ a < b by omega), if_pos ha] at h1
      exact absurd h1 (by simp)

theorem lexLt_total_eq : ∀ (a b : List Nat),
    lexLt a b = false → lexLt b a = false → a = b
  | [], [] => by simp
  | [], _ :: _ => by simp [lexLt]
  | _ :: _, [] => by simp [lexLt]
  | a :: as, b :: bs => by
    simp only [lexLt]
    intro h1 h2
    rcases Nat.lt_trichotomy a b with h3 | h3 | h3
    · rw [if_pos h3] at h1
      exact absurd h1 (by simp)
    · subst h3
      rw [if_neg (lt_irrefl a), if_neg (lt_irrefl a)] at h1 h2
      rw [lexLt_total_eq as bs h1 h2]
    · rw [if_pos h3] at h2
      exact absurd h2 (by simp)

/-! ### Injectivity of UTF-16 encoding -/

theorem utf16Char_append_inj (c₁ c₂ : Char) (r₁ r₂ : List Nat)
    (h : utf16Char c₁ ++ r₁ = utf16Char c₂ ++ r₂) : c₁ = c₂ ∧ r₁ = r₂ := by
  have hv₁ : c₁.toNat < 0xd800 ∨ (0xdfff < c₁.toNat ∧ c₁.toNat < 0x110000) := c₁.valid
  have hv₂ : c₂.toNat < 0xd800 ∨ (0xdfff < c₂.toNat ∧ c₂.toNat < 0x110000) := c₂.valid
  have toNat_eq : ∀ {a b : Char}, a.toNat = b.toNat → a = b :=
    fun h => Char.ext (UInt32.toNat.inj h)
  simp only [utf16Char] at h
  by_cases h1 : c₁.toNat < 0x10000 <;> by_cases h2 : c₂.toNat < 0x10000
  · rw [if_pos h1, if_pos h2] at h
    simp only [List.cons_append, List.nil_append, List.cons.injEq] at h
    exact ⟨toNat_eq h.1, h.2⟩
  · rw [if_pos h1, if_neg h2] at h
    simp only [List.cons_append, List.nil_append, List.cons.injEq] at h
    omega
  · rw [if_neg h1, if_pos h2] at h
    simp only [List.cons_append, List.nil_append, List.cons.injEq] at h
    omega
  · rw [if_neg h1, if_neg h2] at h
    simp only [List.cons_append, List.nil_append, List.cons.injEq] at h
    refine ⟨toNat_eq (by omega), h.2.2⟩

theorem utf16Chars_inj : ∀ (s t : List Char),
    s.flatMap utf16Char = t.flatMap utf16Char → s = t
  | [], [] => fun _ => rfl
  | [], c :: t => by
    intro h
    simp only [List.flatMap_nil, List.flatMap_cons] at h
    have : utf16Char c ≠ [] := by
      simp only [utf16Char]
      split_ifs <;> simp
    cases hc : utf16Char c with
    | nil => exact absurd hc this
    | cons x xs => rw [hc] at h; simp at h
  | c :: t, [] => by
    intro h
    simp only [List.flatMap_nil, List.flatMap_cons] at h
    have : utf16Char c ≠ [] := by
      simp only [utf16Char]
      split_ifs <;> simp
    cases hc : utf16Char c with
    | nil => exact absurd hc this
    | cons x xs => rw [hc] at h; simp at h
  | c₁ :: t₁, c₂ :: t₂ => by
    intro h
    simp only [List.flatMap_cons] at h
    obtain ⟨hc, hr⟩ := utf16Char_append_inj c₁ c₂ _ _ h
    rw [hc, utf16Chars_inj t₁ t₂ hr]

theorem utf16_inj {s t : String} (h : utf16 s = utf16 t) : s = t :=
  String.ext (utf16Chars_inj s.data t.data h)

/-! ### The key order is a decidable linear order -/

instance : IsTrans String KeyLeR := by
  constructor
  intro a b c hab hbc
  simp only [KeyLeR, keyLe, keyLt, Bool.not_eq_true'] at hab hbc ⊢
  by_contra hac
  simp only [Bool.not_eq_false] at hac
  rcases h1 : lexLt (utf16 b) (utf16 a) with _ | _
  · rcases h2 : lexLt (utf16 a) (utf16 b) with _ | _
    · have := lexLt_total_eq _ _ h2 h1
      rw [← this] at hbc
      rw [hbc] at hac
      simp at hac
    · have := lexLt_trans _ _ _ hac h2
      rw [this] at hbc
      simp at hbc
  · rw [h1] at hab; simp at hab

instance : IsTotal String KeyLeR := by
  constructor
  intro a b
  simp only [KeyLeR, keyLe, keyLt, Bool.not_eq_true']
  rcases h1 : lexLt (utf16 b) (utf16 a) with _ | _
  · left; rfl
  · right
    exact lexLt_asymm _ _ h1

instance : IsAntisymm String KeyLeR := by
  constructor
  intro a b hab hba
  simp only [KeyLeR, keyLe, keyLt, Bool.not_eq_true'] at hab hba
  exact utf16_inj (lexLt_total_eq _ _ hba hab)

/-- `sortKeys` sorts. -/
theorem sortKeys_sorted (ks : List String) : List.Sorted KeyLeR (sortKeys ks) :=
  List.sorted_insertionSort KeyLeR ks

/-- `sortKeys` permutes. -/
theorem sortKeys_perm (ks : List String) : (sortKeys ks).Perm ks :=
  List.perm_insertionSort KeyLeR ks

/-! ## Property-table lemmas -/

theorem arrayIndexVal_inj {a b : String} {n : Nat}
    (ha : arrayIndexVal a = some n) (hb : arrayIndexVal b = some n) : a = b := by
  simp only [arrayIndexVal] at ha hb
  split_ifs at ha with h1
  · split_ifs at hb with h2
    · injection ha with hva
      injection hb with hvb
      apply String.ext
      have h1' := h1.1
      have h2' := h2.1
      rw [hva] at h1'
      rw [hvb] at h2'
      rw [← h1', ← h2']

theorem jsLookup_isSome_iff_mem (l : List (String × Json)) (k : String) :
    (jsLookup l k).isSome ↔ k ∈ keysOf l := by
  induction l with
  | nil => simp [jsLookup, keysOf]
  | cons p t ih =>
    obtain ⟨k', v'⟩ := p
    simp only [jsLookup, keysOf, List.map_cons, List.mem_cons]
    by_cases h : k' = k
    · subst h; simp
    · rw [if_neg h]
      rw [keysOf] at ih
      rw [ih]
      constructor
      · exact Or.inr
      · rintro (rfl | hm)
        · exact absurd rfl h
        · exact hm

theorem jsLookup_jsUpdate_other (l : List (String × Json)) (k : String) (v : Json)
    (k' : String) (h : k' ≠ k) : jsLookup (jsUpdate l k v) k' = jsLookup l k' := by
  induction l with
  | nil => rfl
  | cons p t ih =>
    obtain ⟨k₀, v₀⟩ := p
    simp only [jsUpdate]
    by_cases h0 : k₀ = k
    · subst h0
      simp only [if_pos rfl, jsLookup]
      rw [if_neg (fun hh => h hh.symm), if_neg (fun hh => h hh.symm)]
    · rw [if_neg h0]
      simp only [jsLookup]
      by_cases h1 : k₀ = k'
      · rw [if_pos h1, if_pos h1]
      · rw [if_neg h1, if_neg h1, ih]

theorem jsLookup_jsUpdate_self (l : List (String × Json)) (k : String) (v : Json)
    (h : (jsLookup l k).isSome) : jsLookup (jsUpdate l k v) k = some v := by
  induction l with
  | nil => simp [jsLookup] at h
  | cons p t ih =>
    obtain ⟨k₀, v₀⟩ := p
    simp only [jsUpdate]
    by_cases h0 : k₀ = k
    · subst h0
      simp [jsLookup]
    · rw [if_neg h0]
      simp only [jsLookup, if_neg h0]
      simp only [jsLookup, if_neg h0] at h
      exact ih h

theorem keysOf_jsUpdate (l : List (String × Json)) (k : String) (v : Json) :
    keysOf (jsUpdate l k v) = keysOf l := by
  induction l with
  | nil => rfl
  | cons p t ih =>
    obtain ⟨k₀, v₀⟩ := p
    simp only [jsUpdate]
    by_cases h0 : k₀ = k
    · rw [if_pos h0]; simp [keysOf]
    · rw [if_neg h0]; simp only [keysOf, List.map_cons] at ih ⊢; rw [ih]

/-- `jsInsertNew` inserts the new pair at one position and moves
nothing else. -/
theorem jsInsertNew_split (n : Option Nat) (k : String) (v : Json) :
    ∀ l : List (String × Json), ∃ l₁ l₂, l = l₁ ++ l₂ ∧
      jsInsertNew n k v l = l₁ ++ (k, v) :: l₂ ∧ (n = none → l₂ = [])
  | [] => ⟨[], [], rfl, rfl, fun _ => rfl⟩
  | (k', v') :: t => by
    match n, hk : arrayIndexVal k' with
    | some i, some j =>
      by_cases hij : i < j
      · refine ⟨[], (k', v') :: t, rfl, ?_, by simp⟩
        simp [jsInsertNew, hk, hij]
      · obtain ⟨l₁, l₂, he, hi, _⟩ := jsInsertNew_split (some i) k v t
        refine ⟨(k', v') :: l₁, l₂, by rw [he]; rfl, ?_, by simp⟩
        simp [jsInsertNew, hk, hij, hi]
    | some i, none =>
      refine ⟨[], (k', v') :: t, rfl, ?_, by simp⟩
      simp [jsInsertNew, hk]
    | none, _ =>
      obtain ⟨l₁, l₂, he, hi, hnil⟩ := jsInsertNew_split none k v t
      refine ⟨(k', v') :: l₁, l₂, by rw [he]; rfl, ?_, fun _ => hnil rfl⟩
      simp [jsInsertNew, hi]

theorem jsLookup_append (l₁ l₂ : List (String × Json)) (k : String) :
    jsLookup (l₁ ++ l₂) k = (jsLookup l₁ k).or (jsLookup l₂ k) := by
  induction l₁ with
  | nil => simp [jsLookup, Option.or]
  | cons p t ih =>
    obtain ⟨k₀, v₀⟩ := p
    by_cases h0 : k₀ = k
    · simp only [List.cons_append, jsLookup, if_pos h0]
      rfl
    · simp only [List.cons_append, jsLookup, if_neg h0]
      exact ih

theorem jsLookup_jsInsert_self (l : List (String × Json)) (k : String) (v : Json) :
    jsLookup (jsInsert l k v) k = some v := by
  rw [jsInsert]
  by_cases h : (jsLookup l k).isSome
  · rw [if_pos h]; exact jsLookup_jsUpdate_self l k v h
  · rw [if_neg h]
    obtain ⟨l₁, l₂, he, hi, _⟩ := jsInsertNew_split (arrayIndexVal k) k v l
    rw [hi, jsLookup_append]
    have h1 : jsLookup l₁ k = none := by
      rcases h2 : jsLookup l₁ k with _ | w
      · rfl
      · exfalso
        apply h
        rw [he, jsLookup_append, h2]
        simp [Option.or]
    rw [h1]
    simp [Option.or, jsLookup]

theorem jsLookup_jsInsert_other (l : List (String × Json)) (k : String) (v : Json)
    (k' : String) (h : k' ≠ k) : jsLookup (jsInsert l k v) k' = jsLookup l k' := by
  rw [jsInsert]
  by_cases hs : (jsLookup l k).isSome
  · rw [if_pos hs]; exact jsLookup_jsUpdate_other l k v k' h
  · rw [if_neg hs]
    obtain ⟨l₁, l₂, he, hi, _⟩ := jsInsertNew_split (arrayIndexVal k) k v l
    rw [hi, jsLookup_append, he, jsLookup_append]
    congr 1
    simp only [jsLookup]
    rw [if_neg (fun hh => h hh.symm)]

theorem keysOf_append (l₁ l₂ : List (String × Json)) :
    keysOf (l₁ ++ l₂) = keysOf l₁ ++ keysOf l₂ := by
  simp [keysOf]

theorem keysOf_jsInsert_perm (l : List (String × Json)) (k : String) (v : Json) :
    (keysOf (jsInsert l k v)).Perm (if k ∈ keysOf l then keysOf l else k :: keysOf l) := by
  rw [jsInsert]
  by_cases h : (jsLookup l k).isSome
  · rw [if_pos h, keysOf_jsUpdate, if_pos ((jsLookup_isSome_iff_mem l k).1 h)]
  · rw [if_neg h]
    have hm : k ∉ keysOf l := fun hm => h ((jsLookup_isSome_iff_mem l k).2 hm)
    rw [if_neg hm]
    obtain ⟨l₁, l₂, he, hi, _⟩ := jsInsertNew_split (arrayIndexVal k) k v l
    rw [hi, he, keysOf, keysOf]
    simp only [List.map_append, List.map_cons]
    exact List.perm_middle

theorem nodup_keysOf_jsInsert (l : List (String × Json)) (k : String) (v : Json)
    (h : (keysOf l).Nodup) : (keysOf (jsInsert l k v)).Nodup := by
  have hp := keysOf_jsInsert_perm l k v
  by_cases hm : k ∈ keysOf l
  · rw [if_pos hm] at hp
    exact hp.nodup_iff.2 h
  · rw [if_neg hm] at hp
    exact hp.nodup_iff.2 (List.nodup_cons.2 ⟨hm, h⟩)

theorem jsLookup_eq_none_of_not_mem {l : List (String × Json)} {k : String}
    (h : k ∉ keysOf l) : jsLookup l k = none := by
  rcases hl : jsLookup l k with _ | w
  · rfl
  · exact absurd ((jsLookup_isSome_iff_mem l k).1 (by rw [hl]; rfl)) h

/-! ### Inserting a list of properties -/

theorem jsLookup_insertAll (ps : List (String × Json)) (hnd : (keysOf ps).Nodup) :
    ∀ (init : List (String × Json)) (k : String),
      jsLookup (insertAll init ps) k = (jsLookup ps k).or (jsLookup init k) := by
  induction ps with
  | nil => intro init k; simp [insertAll, jsLookup, Option.or]
  | cons p t ih =>
    intro init k
    obtain ⟨k₀, v₀⟩ := p
    simp only [keysOf, List.map_cons, List.nodup_cons] at hnd
    have step : insertAll init ((k₀, v₀) :: t) = insertAll (jsInsert init k₀ v₀) t := rfl
    rw [step, ih hnd.2]
    simp only [jsLookup]
    by_cases h0 : k₀ = k
    · subst h0
      have hn : jsLookup t k₀ = none := jsLookup_eq_none_of_not_mem hnd.1
      rw [hn, jsLookup_jsInsert_self]
      simp [Option.or]
    · rw [if_neg h0, jsLookup_jsInsert_other _ _ _ _ (fun hh => h0 hh.symm)]

theorem mem_jsInsertNew {x : String × Json} (n : Option Nat) (k : String) (v : Json)
    (l : List (String × Json)) : x ∈ jsInsertNew n k v l ↔ x = (k, v) ∨ x ∈ l := by
  obtain ⟨l₁, l₂, he, hi, _⟩ := jsInsertNew_split n k v l
  rw [hi, he]
  simp only [List.mem_append, List.mem_cons]
  tauto

/-! ### `enumOrd` facts -/

theorem enumOrd_none_right (a b : String) (h : arrayIndexVal b = none) :
    enumOrd a b = true := by
  rw [enumOrd, h]
  rcases arrayIndexVal a <;> rfl

theorem enumOrd_some_some {a b : String} {i j : Nat} (ha : arrayIndexVal a = some i)
    (hb : arrayIndexVal b = some j) : enumOrd a b = decide (i < j) := by
  rw [enumOrd, ha, hb]

theorem enumOrd_true_of_none_left {a b : String} (ha : arrayIndexVal a = none)
    (h : enumOrd a b = true) : arrayIndexVal b = none := by
  rcases hb : arrayIndexVal b with _ | j
  · rfl
  · rw [enumOrd, ha, hb] at h
    exact absurd h (by simp)

theorem pairwise_jsInsertNew (k : String) (v : Json) :
    ∀ (l : List (String × Json)), k ∉ keysOf l →
      l.Pairwise (fun p q => enumOrd p.1 q.1 = true) →
      (jsInsertNew (arrayIndexVal k) k v l).Pairwise (fun p q => enumOrd p.1 q.1 = true)
  | [], _, _ => by simp [jsInsertNew]
  | (k', v') :: t, hfresh, h => by
    have hfk : k ≠ k' := by
      intro hh
      exact hfresh (by rw [hh]; exact List.mem_cons_self _ _)
    have hft : k ∉ keysOf t := by
      intro hh
      exact hfresh (List.mem_cons_of_mem _ hh)
    rw [List.pairwise_cons] at h
    have hrec := pairwise_jsInsertNew k v t hft h.2
    rcases hk : arrayIndexVal k with _ | i
    · rw [hk] at hrec
      have step : jsInsertNew none k v ((k', v') :: t)
          = (k', v') :: jsInsertNew none k v t := by
        rcases hx : arrayIndexVal k' with _ | j <;> simp [jsInsertNew, hx]
      rw [step, List.pairwise_cons]
      refine ⟨?_, hrec⟩
      intro x hx
      rcases (mem_jsInsertNew none k v t).1 hx with hx | hx
      · rw [hx]
        exact enumOrd_none_right k' k hk
      · exact h.1 x hx
    · rw [hk] at hrec
      rcases hk' : arrayIndexVal k' with _ | j
      · have step : jsInsertNew (some i) k v ((k', v') :: t) = (k, v) :: (k', v') :: t := by
          simp [jsInsertNew, hk']
        rw [step, List.pairwise_cons]
        refine ⟨?_, List.pairwise_cons.2 h⟩
        intro x hx
        rcases List.mem_cons.1 hx with hx | hx
        · rw [hx]
          exact enumOrd_none_right k k' hk'
        · have hxn : arrayIndexVal x.1 = none :=
            enumOrd_true_of_none_left hk' (h.1 x hx)
          exact enumOrd_none_right k x.1 hxn
      · by_cases hij : i < j
        · have step : jsInsertNew (some i) k v ((k', v') :: t) = (k, v) :: (k', v') :: t := by
            simp [jsInsertNew, hk', hij]
          rw [step, List.pairwise_cons]
          refine ⟨?_, List.pairwise_cons.2 h⟩
          intro x hx
          rcases List.mem_cons.1 hx with hx | hx
          · rw [hx]
            rw [enumOrd_some_some hk hk']
            simpa using hij
          · rcases hx' : arrayIndexVal x.1 with _ | j'
            · exact enumOrd_none_right k x.1 hx'
            · have hj : j < j' := by
                have := h.1 x hx
                rw [enumOrd_some_some hk' hx'] at this
                simpa using this
              rw [enumOrd_some_some hk hx']
              simp only [decide_eq_true_eq]
              omega
        · have hji : j < i := by
            rcases Nat.lt_trichotomy i j with hh | hh | hh
            · exact absurd hh hij
            · exact absurd (arrayIndexVal_inj hk (by rw [hk', hh])) hfk
            · exact hh
          have step : jsInsertNew (some i) k v ((k', v') :: t)
              = (k', v') :: jsInsertNew (some i) k v t := by
            simp [jsInsertNew, hk', hij]
          rw [step, List.pairwise_cons]
          refine ⟨?_, hrec⟩
          intro x hx
          rcases (mem_jsInsertNew (some i) k v t).1 hx with hx | hx
          · rw [hx]
            rw [enumOrd_some_some hk' hk]
            simpa using hji
          · exact h.1 x hx

theorem pairwise_jsInsert (l : List (String × Json)) (k : String) (v : Json)
    (hfresh : k ∉ keysOf l) (h : l.Pairwise (fun p q => enumOrd p.1 q.1 = true)) :
    (jsInsert l k v).Pairwise (fun p q => enumOrd p.1 q.1 = true) := by
  rw [jsInsert, if_neg (by rw [jsLookup_eq_none_of_not_mem hfresh]; simp)]
  exact pairwise_jsInsertNew k v l hfresh h

theorem filter_nonIdx_jsInsert (l : List (String × Json)) (k : String) (v : Json)
    (hfresh : k ∉ keysOf l) :
    (jsInsert l k v).filter (fun p => !isArrayIndex p.1)
      = if isArrayIndex k then l.filter (fun p => !isArrayIndex p.1)
        else l.filter (fun p => !isArrayIndex p.1) ++ [(k, v)] := by
  rw [jsInsert, if_neg (by rw [jsLookup_eq_none_of_not_mem hfresh]; simp)]
  obtain ⟨l₁, l₂, he, hi, hnil⟩ := jsInsertNew_split (arrayIndexVal k) k v l
  rcases hk : arrayIndexVal k with _ | i
  · have h2 : l₂ = [] := by rw [hk] at hnil; exact hnil rfl
    rw [hk] at hi
    rw [hi, he, h2]
    have : isArrayIndex k = false := by rw [isArrayIndex, hk]; rfl
    rw [this]
    simp only [if_neg Bool.false_ne_true, List.append_nil, List.filter_append]
    congr 1
    simp [List.filter, this]
  · rw [hk] at hi
    rw [hi, he]
    have : isArrayIndex k = true := by rw [isArrayIndex, hk]; rfl
    rw [this, if_pos rfl]
    simp only [List.filter_append, List.filter_cons, this]
    simp

theorem filter_nonIdx_insertAll (ps : List (String × Json)) (hnd : (keysOf ps).Nodup) :
    ∀ (init : List (String × Json)), (∀ k ∈ keysOf ps, k ∉ keysOf init) →
      (insertAll init ps).filter (fun p => !isArrayIndex p.1)
        = init.filter (fun p => !isArrayIndex p.1)
          ++ ps.filter (fun p => !isArrayIndex p.1) := by
  induction ps with
  | nil => intro init _; simp [insertAll]
  | cons p t ih =>
    intro init hdisj
    obtain ⟨k₀, v₀⟩ := p
    simp only [keysOf, List.map_cons, List.nodup_cons] at hnd
    have hfresh : k₀ ∉ keysOf init := hdisj k₀ (List.mem_cons_self _ _)
    have hdisj' : ∀ k ∈ keysOf t, k ∉ keysOf (jsInsert init k₀ v₀) := by
      intro k hk hmem
      have hperm := keysOf_jsInsert_perm init k₀ v₀
      rw [if_neg hfresh] at hperm
      rcases List.mem_cons.1 (hperm.mem_iff.1 hmem) with hh | hh
      · exact hnd.1 (hh ▸ hk)
      · exact hdisj k (List.mem_cons_of_mem _ hk) hh
    have step : insertAll init ((k₀, v₀) :: t) = insertAll (jsInsert init k₀ v₀) t := rfl
    rw [step, ih hnd.2 _ hdisj', filter_nonIdx_jsInsert init k₀ v₀ hfresh]
    by_cases hidx : isArrayIndex k₀
    · rw [if_pos hidx]
      simp only [List.filter_cons, hidx]
      simp
    · rw [if_neg hidx]
      simp only [List.filter_cons]
      rw [(by simpa using hidx : isArrayIndex k₀ = false)]
      simp

theorem pairwise_insertAll (ps : List (String × Json)) (hnd : (keysOf ps).Nodup) :
    ∀ (init : List (String × Json)), (∀ k ∈ keysOf ps, k ∉ keysOf init) →
      init.Pairwise (fun p q => enumOrd p.1 q.1 = true) →
      (insertAll init ps).Pairwise (fun p q => enumOrd p.1 q.1 = true) := by
  induction ps with
  | nil => intro init _ h; exact h
  | cons p t ih =>
    intro init hdisj hinit
    obtain ⟨k₀, v₀⟩ := p
    simp only [keysOf, List.map_cons, List.nodup_cons] at hnd
    have hfresh : k₀ ∉ keysOf init := hdisj k₀ (List.mem_cons_self _ _)
    have hdisj' : ∀ k ∈ keysOf t, k ∉ keysOf (jsInsert init k₀ v₀) := by
      intro k hk hmem
      have hperm := keysOf_jsInsert_perm init k₀ v₀
      rw [if_neg hfresh] at hperm
      rcases List.mem_cons.1 (hperm.mem_iff.1 hmem) with hh | hh
      · exact hnd.1 (hh ▸ hk)
      · exact hdisj k (List.mem_cons_of_mem _ hk) hh
    have step : insertAll init ((k₀, v₀) :: t) = insertAll (jsInsert init k₀ v₀) t := rfl
    rw [step]
    exact ih hnd.2 _ hdisj' (pairwise_jsInsert init k₀ v₀ hfresh hinit)

theorem nodup_keysOf_insertAll (ps : List (String × Json)) :
    ∀ (init : List (String × Json)), (keysOf init).Nodup →
      (keysOf (insertAll init ps)).Nodup := by
  induction ps with
  | nil => intro init h; exact h
  | cons p t ih =>
    intro init h
    exact ih _ (nodup_keysOf_jsInsert init p.1 p.2 h)

theorem jsLookup_map_key (ks : List String) (f : String → Json) (k : String) :
    jsLookup (ks.map (fun x => (x, f x))) k = if k ∈ ks then some (f k) else none := by
  induction ks with
  | nil => simp [jsLookup]
  | cons x t ih =>
    simp only [List.map_cons, jsLookup, List.mem_cons]
    by_cases h0 : x = k
    · subst h0
      simp
    · rw [if_neg h0, ih]
      by_cases hm : k ∈ t
      · rw [if_pos hm, if_pos (Or.inr hm)]
      · rw [if_neg hm, if_neg (by rintro (rfl | hh); exact h0 rfl; exact hm hh)]

theorem keysOf_map_key (ks : List String) (f : String → Json) :
    keysOf (ks.map (fun x => (x, f x))) = ks := by
  induction ks with
  | nil => rfl
  | cons x t ih =>
    simp only [keysOf, List.map_cons] at ih ⊢
    rw [ih]

theorem filter_nonIdx_map_key (ks : List String) (f : String → Json) :
    (ks.map (fun x => (x, f x))).filter (fun q => !isArrayIndex q.1)
      = (ks.filter (fun x => !isArrayIndex x)).map (fun x => (x, f x)) := by
  induction ks with
  | nil => rfl
  | cons x t ih =>
    simp only [List.map_cons, List.filter_cons]
    by_cases hp : isArrayIndex x
    · simp only [hp]
      simp only [Bool.not_true, if_neg Bool.false_ne_true] at ih ⊢
      exact ih
    · simp only [(by simpa using hp : isArrayIndex x = false)]
      simp only [Bool.not_false, if_pos trivial, List.map_cons]
      rw [ih]

/-! ### Characterization of `spreadMerge` and `rebuiltScripts` -/

theorem keysOf_insertAll_perm (ps : List (String × Json)) (hnd : (keysOf ps).Nodup) :
    ∀ (init : List (String × Json)), (∀ k ∈ keysOf ps, k ∉ keysOf init) →
      (keysOf (insertAll init ps)).Perm (keysOf init ++ keysOf ps) := by
  induction ps with
  | nil => intro init _; simp [insertAll, keysOf]
  | cons p t ih =>
    intro init hdisj
    obtain ⟨k₀, v₀⟩ := p
    simp only [keysOf, List.map_cons, List.nodup_cons] at hnd
    have hfresh : k₀ ∉ keysOf init := hdisj k₀ (List.mem_cons_self _ _)
    have hperm := keysOf_jsInsert_perm init k₀ v₀
    rw [if_neg hfresh] at hperm
    have hdisj' : ∀ k ∈ keysOf t, k ∉ keysOf (jsInsert init k₀ v₀) := by
      intro k hk hmem
      rcases List.mem_cons.1 (hperm.mem_iff.1 hmem) with hh | hh
      · exact hnd.1 (hh ▸ hk)
      · exact hdisj k (List.mem_cons_of_mem _ hk) hh
    have step : insertAll init ((k₀, v₀) :: t) = insertAll (jsInsert init k₀ v₀) t := rfl
    rw [step]
    refine ((ih hnd.2 _ hdisj').trans ?_)
    refine (hperm.append_right (keysOf t)).trans ?_
    simp only [keysOf, List.map_cons, List.cons_append]
    exact List.perm_middle.symm

theorem spreadMerge_lookup (S A : List (String × Json)) (hndS : (keysOf S).Nodup)
    (hndA : (keysOf A).Nodup) (k : String) :
    jsLookup (spreadMerge S A) k = (jsLookup A k).or (jsLookup S k) := by
  rw [spreadMerge, jsLookup_insertAll A hndA, jsLookup_insertAll S hndS]
  rcases jsLookup A k with _ | w <;> rcases jsLookup S k with _ | w' <;>
    simp [jsLookup, Option.or]

theorem spreadMerge_nodup (S A : List (String × Json)) :
    (keysOf (spreadMerge S A)).Nodup := by
  rw [spreadMerge]
  exact nodup_keysOf_insertAll A _ (nodup_keysOf_insertAll S [] (by simp [keysOf]))

theorem rebuiltScripts_lookup (merged : List (String × Json))
    (hnd : (keysOf merged).Nodup) (k : String) :
    jsLookup (rebuiltScripts merged) k = jsLookup merged k := by
  have hpermK : (sortKeys (keysOf merged)).Perm (keysOf merged) := sortKeys_perm _
  have hndK : (sortKeys (keysOf merged)).Nodup := hpermK.nodup_iff.2 hnd
  have hndP : (keysOf ((sortKeys (keysOf merged)).map
      (fun x => (x, (jsLookup merged x).getD Json.null)))).Nodup := by
    rw [keysOf_map_key]; exact hndK
  rw [rebuiltScripts, jsLookup_insertAll _ hndP [] k, jsLookup_map_key]
  have hmem : k ∈ sortKeys (keysOf merged) ↔ (jsLookup merged k).isSome := by
    rw [hpermK.mem_iff, ← jsLookup_isSome_iff_mem]
  by_cases hm : k ∈ sortKeys (keysOf merged)
  · rw [if_pos hm]
    rcases hv : jsLookup merged k with _ | w
    · rw [hv] at hmem
      simp at hmem
      exact absurd hm hmem
    · simp [jsLookup, Option.or]
  · rw [if_neg hm]
    rcases hv : jsLookup merged k with _ | w
    · simp [jsLookup, Option.or]
    · rw [hv] at hmem
      simp at hmem
      exact absurd hmem hm

theorem rebuiltScripts_nodup (merged : List (String × Json)) :
    (keysOf (rebuiltScripts merged)).Nodup :=
  nodup_keysOf_insertAll _ [] (by simp [keysOf])

theorem rebuiltScripts_pairwise (merged : List (String × Json))
    (hnd : (keysOf merged).Nodup) :
    (rebuiltScripts merged).Pairwise (fun p q => enumOrd p.1 q.1 = true) := by
  have hndP : (keysOf ((sortKeys (keysOf merged)).map
      (fun x => (x, (jsLookup merged x).getD Json.null)))).Nodup := by
    rw [keysOf_map_key]; exact (sortKeys_perm _).nodup_iff.2 hnd
  exact pairwise_insertAll _ hndP [] (by intro k _ hk; simp [keysOf] at hk) (by simp)

theorem rebuiltScripts_filter_sorted (merged : List (String × Json))
    (hnd : (keysOf merged).Nodup) :
    List.Sorted KeyLeR (keysOf ((rebuiltScripts merged).filter
      (fun p => !isArrayIndex p.1))) := by
  have hndP : (keysOf ((sortKeys (keysOf merged)).map
      (fun x => (x, (jsLookup merged x).getD Json.null)))).Nodup := by
    rw [keysOf_map_key]; exact (sortKeys_perm _).nodup_iff.2 hnd
  rw [rebuiltScripts, filter_nonIdx_insertAll _ hndP []
    (by intro k _ hk; simp [keysOf] at hk)]
  simp only [List.filter_nil, List.nil_append]
  rw [filter_nonIdx_map_key, keysOf_map_key]
  exact (sortKeys_sorted _).filter _

theorem rebuiltScripts_keys_perm (merged : List (String × Json))
    (hnd : (keysOf merged).Nodup) :
    (keysOf (rebuiltScripts merged)).Perm (keysOf merged) := by
  have hndP : (keysOf ((sortKeys (keysOf merged)).map
      (fun x => (x, (jsLookup merged x).getD Json.null)))).Nodup := by
    rw [keysOf_map_key]; exact (sortKeys_perm _).nodup_iff.2 hnd
  refine (keysOf_insertAll_perm _ hndP []
    (by intro k _ hk; simp [keysOf] at hk)).trans ?_
  show (([] : List String) ++ keysOf _).Perm (keysOf merged)
  rw [List.nil_append, keysOf_map_key]
  exact sortKeys_perm _

theorem addScripts_obj (fields A : List (String × Json)) :
    addScriptsToPackageJson (Json.obj fields) A
      = Json.obj (jsInsert fields "scripts"
          (Json.obj (rebuiltScripts (spreadMerge (scriptsOfFields fields) A)))) := rfl

theorem scriptsOf_addScripts (fields A : List (String × Json)) :
    scriptsOf (addScriptsToPackageJson (Json.obj fields) A)
      = rebuiltScripts (spreadMerge (scriptsOfFields fields) A) := by
  rw [addScripts_obj, scriptsOf, scriptsOfFields, jsLookup_jsInsert_self]

/-! ### Re-assigning existing values is the identity -/

theorem jsUpdate_self : ∀ (l : List (String × Json)) (k : String) (v : Json),
    jsLookup l k = some v → jsUpdate l k v = l
  | [], _, _, h => by simp [jsLookup] at h
  | (k₀, v₀) :: t, k, v, h => by
    simp only [jsLookup] at h
    simp only [jsUpdate]
    by_cases h0 : k₀ = k
    · rw [if_pos h0] at h ⊢
      injection h with h
      rw [h]
    · rw [if_neg h0] at h ⊢
      rw [jsUpdate_self t k v h]

theorem jsLookup_of_mem_nodup {l : List (String × Json)} {k : String} {v : Json}
    (hnd : (keysOf l).Nodup) (hm : (k, v) ∈ l) : jsLookup l k = some v := by
  induction l with
  | nil => simp at hm
  | cons p t ih =>
    obtain ⟨k₀, v₀⟩ := p
    simp only [keysOf, List.map_cons, List.nodup_cons] at hnd
    rcases List.mem_cons.1 hm with hm | hm
    · injection hm with h1 h2
      subst h1
      rw [jsLookup, if_pos rfl, h2.symm]
    · rw [jsLookup]
      by_cases h0 : k₀ = k
      · subst h0
        exfalso
        apply hnd.1
        have : k₀ ∈ keysOf t := by
          rw [keysOf, List.mem_map]
          exact ⟨(k₀, v), hm, rfl⟩
        rw [keysOf] at this
        exact this
      · rw [if_neg h0]
        exact ih hnd.2 hm

theorem insertAll_id : ∀ (ps init : List (String × Json)),
    (∀ p ∈ ps, jsLookup init p.1 = some p.2) → insertAll init ps = init
  | [], _, _ => rfl
  | p :: t, init, h => by
    have h1 : jsLookup init p.1 = some p.2 := h p (List.mem_cons_self _ _)
    have step : insertAll init (p :: t) = insertAll (jsInsert init p.1 p.2) t := rfl
    have h2 : jsInsert init p.1 p.2 = init := by
      rw [jsInsert, if_pos (by rw [h1]; rfl)]
      exact jsUpdate_self init p.1 p.2 h1
    rw [step, h2]
    exact insertAll_id t init (fun q hq => h q (List.mem_cons_of_mem _ hq))

theorem jsInsertNew_append (k : String) (v : Json) :
    ∀ (l : List (String × Json)), (∀ p ∈ l, enumOrd p.1 k = true) →
      jsInsertNew (arrayIndexVal k) k v l = l ++ [(k, v)]
  | [], _ => rfl
  | (k', v') :: t, h => by
    have ho : enumOrd k' k = true := h (k', v') (List.mem_cons_self _ _)
    have hrec := jsInsertNew_append k v t (fun q hq => h q (List.mem_cons_of_mem _ hq))
    rcases hk : arrayIndexVal k with _ | i
    · rw [hk] at hrec
      have step : jsInsertNew none k v ((k', v') :: t)
          = (k', v') :: jsInsertNew none k v t := by
        rcases hx : arrayIndexVal k' with _ | j <;> simp [jsInsertNew, hx]
      rw [step, hrec]
      rfl
    · rw [hk] at hrec
      rcases hk' : arrayIndexVal k' with _ | j
      · rw [enumOrd, hk', hk] at ho
        exact absurd ho (by simp)
      · have hji : j < i := by
          rw [enumOrd, hk', hk] at ho
          simpa using ho
        have step : jsInsertNew (some i) k v ((k', v') :: t)
            = (k', v') :: jsInsertNew (some i) k v t := by
          simp only [jsInsertNew, hk']
          rw [if_neg (by omega : ¬ i < j)]
        rw [step, hrec]
        rfl

theorem insertAll_wf_id : ∀ (todo done : List (String × Json)),
    (keysOf (done ++ todo)).Nodup →
    (done ++ todo).Pairwise (fun p q => enumOrd p.1 q.1 = true) →
    insertAll done todo = done ++ todo
  | [], done, _, _ => by rw [List.append_nil]; rfl
  | (k, v) :: t, done, hnd, hpw => by
    have hkeys : keysOf (done ++ (k, v) :: t) = keysOf done ++ k :: keysOf t := by
      simp [keysOf]
    rw [hkeys] at hnd
    have hfresh : k ∉ keysOf done := by
      intro hm
      exact (List.disjoint_of_nodup_append hnd) hm (List.mem_cons_self _ _)
    have horder : ∀ p ∈ done, enumOrd p.1 k = true := by
      intro p hp
      have := (List.pairwise_append.1 hpw).2.2 p hp (k, v) (List.mem_cons_self _ _)
      exact this
    have hins : jsInsert done k v = done ++ [(k, v)] := by
      rw [jsInsert, if_neg (by rw [jsLookup_eq_none_of_not_mem hfresh]; simp)]
      exact jsInsertNew_append k v done horder
    have step : insertAll done ((k, v) :: t) = insertAll (jsInsert done k v) t := rfl
    rw [step, hins]
    have hassoc : (done ++ [(k, v)]) ++ t = done ++ (k, v) :: t := by
      simp
    rw [insertAll_wf_id t (done ++ [(k, v)]) (by rw [hassoc, hkeys]; exact hnd)
      (by rw [hassoc]; exact hpw), hassoc]

theorem insertAll_nil_self (l : List (String × Json)) (hnd : (keysOf l).Nodup)
    (hpw : l.Pairwise (fun p q => enumOrd p.1 q.1 = true)) : insertAll [] l = l :=
  insertAll_wf_id l [] (by simpa [keysOf] using hnd) (by simpa using hpw)

theorem sortKeys_eq_of_perm {ks ks' : List String} (h : ks.Perm ks') :
    sortKeys ks = sortKeys ks' :=
  List.eq_of_perm_of_sorted ((sortKeys_perm ks).trans (h.trans (sortKeys_perm ks').symm))
    (sortKeys_sorted ks) (sortKeys_sorted ks')

/-! ## Claim C1: what one `addScriptsToPackageJson` call persists -/

/-- Claim C1 (amended).  A single `addScriptsToPackageJson` call on a
manifest whose `scripts` mapping is `S` (or absent, `S = []`) persists
a `scripts` mapping that is the union of `S` and the additions `A`
with `A` winning on every key collision and no key of `S` or `A`
dropped; its keys are listed with the array-index keys first in
ascending numeric order, followed by the remaining keys in ascending
ordinal (code-unit) order; in particular, when no key is an array
index, the keys are in ascending ordinal order.  (The original claim,
ascending ordinal order for *all* key sets, fails for array-index
keys, which JS objects enumerate first; see the counterexample.) -/
theorem claim_C1_amended (fields S A : List (String × Json))
    (hS : jsLookup fields "scripts" = some (Json.obj S) ∨
          (jsLookup fields "scripts" = none ∧ S = []))
    (hndS : (keysOf S).Nodup) (hndA : (keysOf A).Nodup) :
    (∀ k, jsLookup (scriptsOf (addScriptsToPackageJson (Json.obj fields) A)) k
        = (jsLookup A k).or (jsLookup S k)) ∧
    (keysOf (scriptsOf (addScriptsToPackageJson (Json.obj fields) A))).Nodup ∧
    (scriptsOf (addScriptsToPackageJson (Json.obj fields) A)).Pairwise
      (fun p q => enumOrd p.1 q.1 = true) ∧
    List.Sorted KeyLeR (keysOf ((scriptsOf (addScriptsToPackageJson (Json.obj fields) A)).filter
      (fun p => !isArrayIndex p.1))) ∧
    ((∀ p ∈ scriptsOf (addScriptsToPackageJson (Json.obj fields) A), isArrayIndex p.1 = false) →
      List.Sorted KeyLeR (keysOf (scriptsOf (addScriptsToPackageJson (Json.obj fields) A)))) := by
  have hSf : scriptsOfFields fields = S := by
    rcases hS with hS | ⟨hS, rfl⟩ <;> rw [scriptsOfFields, hS]
  have hr := scriptsOf_addScripts fields A
  rw [hSf] at hr
  have hndM : (keysOf (spreadMerge S A)).Nodup := spreadMerge_nodup S A
  rw [hr]
  refine ⟨?_, rebuiltScripts_nodup _, rebuiltScripts_pairwise _ hndM,
    rebuiltScripts_filter_sorted _ hndM, ?_⟩
  · intro k
    rw [rebuiltScripts_lookup _ hndM, spreadMerge_lookup S A hndS hndA]
  · intro hnone
    have hfe : (rebuiltScripts (spreadMerge S A)).filter (fun p => !isArrayIndex p.1)
        = rebuiltScripts (spreadMerge S A) := by
      apply List.filter_eq_self.2
      intro p hp
      rw [hnone p hp]
      rfl
    rw [← hfe]
    exact rebuiltScripts_filter_sorted _ hndM

/-- Claim C1, counterexample to the key-order clause as stated: with
`scripts = {}` and additions `{"10": "a", "2": "b"}` the persisted key
order is `["2", "10"]` (JS objects enumerate array-index keys in
numeric order), which is not ascending ordinal (code-unit) order,
since `"10"` precedes `"2"` ordinally. -/
theorem claim_C1_counterexample :
    keysOf (scriptsOf (addScriptsToPackageJson (Json.obj [("scripts", Json.obj [])])
      [("10", Json.str "a"), ("2", Json.str "b")])) = ["2", "10"] ∧
    keyLt "10" "2" = true ∧
    ¬ List.Sorted KeyLeR (keysOf (scriptsOf (addScriptsToPackageJson
      (Json.obj [("scripts", Json.obj [])]) [("10", Json.str "a"), ("2", Json.str "b")]))) := by
  refine ⟨rfl, by decide, ?_⟩
  intro h
  have h2 : List.Sorted KeyLeR ["2", "10"] := h
  rw [List.sorted_cons] at h2
  have h1 : KeyLeR "2" "10" := h2.1 "10" (by simp)
  rw [KeyLeR] at h1
  exact absurd h1 (by decide)

/-- Claim C1 witness: the amended theorem applied to a concrete
manifest (`scripts = {"test": ...}`) and concrete additions. -/
theorem claim_C1_amended_witness :
    (∀ k, jsLookup (scriptsOf (addScriptsToPackageJson
        (Json.obj [("scripts", Json.obj [("test", Json.str "t")])])
        [("format", Json.str "prettier --write ."), ("lint", Json.str "eslint .")])) k
      = (jsLookup [("format", Json.str "prettier --write ."), ("lint", Json.str "eslint .")] k).or
          (jsLookup [("test", Json.str "t")] k)) ∧
    (keysOf (scriptsOf (addScriptsToPackageJson
        (Json.obj [("scripts", Json.obj [("test", Json.str "t")])])
        [("format", Json.str "prettier --write ."), ("lint", Json.str "eslint .")]))).Nodup ∧
    (scriptsOf (addScriptsToPackageJson
        (Json.obj [("scripts", Json.obj [("test", Json.str "t")])])
        [("format", Json.str "prettier --write ."), ("lint", Json.str "eslint .")])).Pairwise
      (fun p q => enumOrd p.1 q.1 = true) ∧
    List.Sorted KeyLeR (keysOf ((scriptsOf (addScriptsToPackageJson
        (Json.obj [("scripts", Json.obj [("test", Json.str "t")])])
        [("format", Json.str "prettier --write ."), ("lint", Json.str "eslint .")])).filter
      (fun p => !isArrayIndex p.1))) ∧
    ((∀ p ∈ scriptsOf (addScriptsToPackageJson
        (Json.obj [("scripts", Json.obj [("test", Json.str "t")])])
        [("format", Json.str "prettier --write ."), ("lint", Json.str "eslint .")]),
        isArrayIndex p.1 = false) →
      List.Sorted KeyLeR (keysOf (scriptsOf (addScriptsToPackageJson
        (Json.obj [("scripts", Json.obj [("test", Json.str "t")])])
        [("format", Json.str "prettier --write ."), ("lint", Json.str "eslint .")])))) :=
  claim_C1_amended [("scripts", Json.obj [("test", Json.str "t")])]
    [("test", Json.str "t")]
    [("format", Json.str "prettier --write ."), ("lint", Json.str "eslint .")]
    (Or.inl rfl) (by simp [keysOf]) (by decide)

/-! ## Claim C6: idempotence of `addScriptsToPackageJson` -/

/-- Claim C6.  `addScriptsToPackageJson` is idempotent: applying it
twice in a row with the same additions leaves the manifest equal to
the result of applying it once. -/
theorem claim_C6_idempotent (fields S A : List (String × Json))
    (hS : jsLookup fields "scripts" = some (Json.obj S) ∨
          (jsLookup fields "scripts" = none ∧ S = []))
    (hndS : (keysOf S).Nodup) (hndA : (keysOf A).Nodup) :
    addScriptsToPackageJson (addScriptsToPackageJson (Json.obj fields) A) A
      = addScriptsToPackageJson (Json.obj fields) A := by
  have hSf : scriptsOfFields fields = S := by
    rcases hS with hS | ⟨hS, rfl⟩ <;> rw [scriptsOfFields, hS]
  have h1 : addScriptsToPackageJson (Json.obj fields) A
      = Json.obj (jsInsert fields "scripts"
          (Json.obj (rebuiltScripts (spreadMerge S A)))) := by
    rw [addScripts_obj, hSf]
  set F := rebuiltScripts (spreadMerge S A) with hF
  set fields₁ := jsInsert fields "scripts" (Json.obj F) with hfields₁
  have hndM : (keysOf (spreadMerge S A)).Nodup := spreadMerge_nodup S A
  have hndF : (keysOf F).Nodup := rebuiltScripts_nodup _
  have hpwF : F.Pairwise (fun p q => enumOrd p.1 q.1 = true) :=
    rebuiltScripts_pairwise _ hndM
  have hSf₁ : scriptsOfFields fields₁ = F := by
    rw [scriptsOfFields, hfields₁, jsLookup_jsInsert_self]
  have hmerge₂ : spreadMerge F A = F := by
    rw [spreadMerge, insertAll_nil_self F hndF hpwF]
    apply insertAll_id
    intro p hp
    rw [hF, rebuiltScripts_lookup _ hndM, spreadMerge_lookup S A hndS hndA,
      jsLookup_of_mem_nodup hndA hp]
    rfl
  have hrebuild₂ : rebuiltScripts F = F := by
    conv_lhs => rw [rebuiltScripts]
    have hkeys : sortKeys (keysOf F) = sortKeys (keysOf (spreadMerge S A)) :=
      sortKeys_eq_of_perm (rebuiltScripts_keys_perm _ hndM)
    have hfun : (fun k => (k, (jsLookup F k).getD Json.null))
        = (fun k => (k, (jsLookup (spreadMerge S A) k).getD Json.null)) := by
      funext k
      rw [hF, rebuiltScripts_lookup _ hndM]
    rw [hkeys, hfun, hF]
    rw [← rebuiltScripts]
  rw [h1, addScripts_obj, hSf₁, hmerge₂, hrebuild₂]
  have hupd : jsInsert fields₁ "scripts" (Json.obj F) = fields₁ := by
    have hl : jsLookup fields₁ "scripts" = some (Json.obj F) := by
      rw [hfields₁, jsLookup_jsInsert_self]
    rw [jsInsert, if_pos (by rw [hl]; rfl)]
    exact jsUpdate_self _ _ _ hl
  rw [hupd]

/-- Claim C6 witness: idempotence at a concrete manifest and concrete
additions. -/
theorem claim_C6_idempotent_witness :
    addScriptsToPackageJson (addScriptsToPackageJson
        (Json.obj [("name", Json.str "demo"), ("scripts", Json.obj [("test", Json.str "t")])])
        [("format", Json.str "prettier --write ."), ("lint", Json.str "eslint .")])
      [("format", Json.str "prettier --write ."), ("lint", Json.str "eslint .")]
    = addScriptsToPackageJson
        (Json.obj [("name", Json.str "demo"), ("scripts", Json.obj [("test", Json.str "t")])])
        [("format", Json.str "prettier --write ."), ("lint", Json.str "eslint .")] :=
  claim_C6_idempotent [("name", Json.str "demo"), ("scripts", Json.obj [("test", Json.str "t")])]
    [("test", Json.str "t")]
    [("format", Json.str "prettier --write ."), ("lint", Json.str "eslint .")]
    (Or.inl rfl) (by simp [keysOf]) (by decide)

/-! ## Claim C5: the `runCommand` tokenizer -/

theorem splitUntilQuote_append : ∀ (l : List Char),
    (splitUntilQuote l).1 ++ (splitUntilQuote l).2 = l
  | [] => rfl
  | c :: t => by
    simp only [splitUntilQuote]
    by_cases h : c = '"'
    · rw [if_pos h]
      rfl
    · rw [if_neg h]
      simp only [List.cons_append]
      rw [splitUntilQuote_append t]

theorem splitUntilQuote_no_quote : ∀ (l : List Char),
    ∀ c ∈ (splitUntilQuote l).1, ¬ c = '"'
  | [] => by simp [splitUntilQuote]
  | c :: t => by
    simp only [splitUntilQuote]
    by_cases h : c = '"'
    · rw [if_pos h]
      simp
    · rw [if_neg h]
      intro x hx
      rcases List.mem_cons.1 hx with hx | hx
      · rw [hx]; exact h
      · exact splitUntilQuote_no_quote t x hx

theorem splitUntilQuote_snd_quote : ∀ (l : List Char) (d : Char) (r : List Char),
    (splitUntilQuote l).2 = d :: r → d = '"'
  | [], d, r => by simp [splitUntilQuote]
  | c :: t, d, r => by
    simp only [splitUntilQuote]
    by_cases h : c = '"'
    · rw [if_pos h]
      intro he
      injection he with h1 _
      rw [← h1]; exact h
    · rw [if_neg h]
      exact splitUntilQuote_snd_quote t d r

theorem splitUntilQuote_snd_length {l : List Char} {d : Char} {r : List Char}
    (h : (splitUntilQuote l).2 = d :: r) : r.length < l.length := by
  have := congrArg List.length (splitUntilQuote_append l)
  rw [List.length_append, h] at this
  simp only [List.length_cons] at this
  omega

theorem dropWhile_length_le (p : Char → Bool) : ∀ (l : List Char),
    (l.dropWhile p).length ≤ l.length
  | [] => le_refl _
  | c :: t => by
    rw [List.dropWhile_cons]
    by_cases h : p c
    · rw [if_pos h]
      exact le_trans (dropWhile_length_le p t) (by simp)
    · rw [if_neg h]

theorem splitUntilQuote_tail_length {l : List Char}
    (h : (splitUntilQuote l).2.isEmpty = false) :
    (splitUntilQuote l).2.tail.length < l.length := by
  rcases hsp : (splitUntilQuote l).2 with _ | ⟨d, r⟩
  · rw [hsp] at h
    simp at h
  · have := splitUntilQuote_snd_length hsp
    simpa using this

theorem claimWord_quoted : ∀ (inner : List Char), (∀ c ∈ inner, ¬ c = '"') →
    ∀ (rest₃ : List Char), headIsWS rest₃ = true →
      claimWord (inner ++ '"' :: rest₃) true = (inner ++ ['"'], rest₃)
  | [], _, rest₃, hb => by
    rcases rest₃ with _ | ⟨d, t⟩
    · rfl
    · have hd : jsWhitespace d = true := hb
      simp only [List.nil_append]
      rw [claimWord]
      rw [if_neg (by decide : ¬(!true && jsWhitespace '"') = true)]
      rw [(by decide : (if ('"' : Char) = '"' then !true else true) = false)]
      rw [claimWord]
      rw [if_pos (by simp [hd] : (!false && jsWhitespace d) = true)]
  | c₀ :: inner', hq, rest₃, hb => by
    have hc₀ : ¬ c₀ = '"' := hq c₀ (List.mem_cons_self _ _)
    have hih := claimWord_quoted inner' (fun x hx => hq x (List.mem_cons_of_mem _ hx)) rest₃ hb
    simp only [List.cons_append]
    rw [claimWord]
    rw [if_neg (by simp : ¬(!true && jsWhitespace c₀) = true)]
    rw [(by rw [if_neg hc₀] : (if c₀ = '"' then !true else true) = true)]
    rw [hih]

theorem claimWord_unquoted : ∀ (rest : List Char),
    headIsWS (rest.dropWhile isTokenChar) = true →
      claimWord rest false = (rest.takeWhile isTokenChar, rest.dropWhile isTokenChar)
  | [], _ => rfl
  | x :: r, hb => by
    by_cases hx : isTokenChar x
    · have hxq : ¬ x = '"' := by
        rw [isTokenChar, Bool.and_eq_true] at hx
        simpa using hx.1
      have hxw : jsWhitespace x = false := by
        rw [isTokenChar, Bool.and_eq_true] at hx
        simpa using hx.2
      rw [List.dropWhile_cons, if_pos hx] at hb
      rw [List.takeWhile_cons, List.dropWhile_cons, if_pos hx, if_pos hx]
      rw [claimWord]
      rw [if_neg (by simp [hxw] : ¬(!false && jsWhitespace x) = true)]
      rw [(by rw [if_neg hxq] : (if x = '"' then !false else false) = false)]
      rw [claimWord_unquoted r hb]
    · rw [List.dropWhile_cons, if_neg hx] at hb
      rw [List.takeWhile_cons, List.dropWhile_cons, if_neg hx, if_neg hx]
      have hxw : jsWhitespace x = true := hb
      rw [claimWord]
      rw [if_pos (by simp [hxw] : (!false && jsWhitespace x) = true)]

theorem regex_claim_tokens_go : ∀ (f : Nat) (l : List Char), l.length < f →
    commandWFGo f l = true → regexTokensGo f l = claimTokensGo f l := by
  intro f
  induction f with
  | zero => intro l hl _; exact absurd hl (by omega)
  | succ g ih =>
    intro l hl hwf
    match l with
    | [] => rfl
    | c :: rest =>
      have hlen : rest.length < g := by
        simp only [List.length_cons] at hl
        omega
      by_cases hws : jsWhitespace c
      · have hq : ¬ c = '"' := by
          intro hh
          rw [hh] at hws
          exact absurd hws (by decide)
        rw [commandWFGo, if_pos hws] at hwf
        rw [regexTokensGo, if_neg hq, if_pos hws]
        rw [claimTokensGo, if_pos hws]
        exact ih rest hlen hwf
      · by_cases hqc : c = '"'
        · subst hqc
          rw [commandWFGo, if_neg hws, if_pos rfl] at hwf
          by_cases hemp : (splitUntilQuote rest).2.isEmpty
          · rw [if_pos hemp] at hwf
            simp at hwf
          · rw [if_neg hemp] at hwf
            simp only [Bool.and_eq_true] at hwf
            obtain ⟨⟨hne, hbnd⟩, hwf₃⟩ := hwf
            have htl : (splitUntilQuote rest).2.tail.length < g :=
              lt_trans (splitUntilQuote_tail_length (by simpa using hemp)) hlen
            rw [regexTokensGo, if_pos rfl, if_neg hemp, if_neg (by simpa using hne)]
            rw [claimTokensGo, if_neg hws]
            rw [(by rw [if_pos rfl] : (if ('"' : Char) = '"' then true else false) = true)]
            have hrest : rest = (splitUntilQuote rest).1 ++ '"' :: (splitUntilQuote rest).2.tail := by
              conv_lhs => rw [← splitUntilQuote_append rest]
              congr 1
              rcases hsp : (splitUntilQuote rest).2 with _ | ⟨d, t⟩
              · rw [hsp] at hemp
                simp at hemp
              · have hd := splitUntilQuote_snd_quote rest d t hsp
                subst hd
                rfl
            have hcw : claimWord rest true
                = ((splitUntilQuote rest).1 ++ ['"'], (splitUntilQuote rest).2.tail) := by
              conv_lhs => rw [hrest]
              exact claimWord_quoted _ (splitUntilQuote_no_quote rest) _ hbnd
            rw [hcw, ih _ htl hwf₃]
        · rw [commandWFGo, if_neg hws, if_neg hqc] at hwf
          simp only [Bool.and_eq_true] at hwf
          obtain ⟨hbnd, hwf'⟩ := hwf
          have hlen' : (rest.dropWhile isTokenChar).length < g :=
            lt_of_le_of_lt (dropWhile_length_le _ rest) hlen
          rw [regexTokensGo, if_neg hqc, if_neg hws]
          rw [claimTokensGo, if_neg hws]
          rw [(by rw [if_neg hqc] : (if c = '"' then true else false) = false)]
          rw [claimWord_unquoted rest hbnd]
          rw [ih _ hlen' hwf']

/-- Claim C5 (amended).  On well-formed command lines — those in which
every double-quoted substring is nonempty, properly closed, and is a
whole whitespace-delimited word — the regex tokenizer of `runCommand`
coincides with splitting on whitespace while keeping each double-quoted
substring a single token; the first token is the executable and the
remaining tokens are its arguments.  (On other placements the regex
instead splits a quoted fragment away from adjacent characters and
drops empty or unmatched quotes; see the counterexample.) -/
theorem claim_C5_amended (command : String)
    (h : commandWellFormed command.data = true) :
    regexTokens command.data = claimTokens command.data ∧
    (∀ cmd args, claimTokens command.data = cmd :: args →
      runCommandArgs command = some (cmd, args)) := by
  have he : regexTokens command.data = claimTokens command.data := by
    rw [regexTokens, claimTokens]
    exact regex_claim_tokens_go _ command.data (by omega) h
  refine ⟨he, ?_⟩
  intro cmd args hc
  rw [runCommandArgs, he, hc]

/-- Claim C5, counterexample as stated: on `x"a b"` the claimed
whitespace-splitting tokenization yields the single token `x"a b"`,
but the regex produces the two tokens `x` and `"a b"`, so the
executable differs. -/
theorem claim_C5_counterexample :
    claimTokens "x\"a b\"".data = [['x', '"', 'a', ' ', 'b', '"']] ∧
    regexTokens "x\"a b\"".data = [['x'], ['"', 'a', ' ', 'b', '"']] ∧
    regexTokens "x\"a b\"".data ≠ claimTokens "x\"a b\"".data := by
  refine ⟨by decide, by decide, by decide⟩

/-- Claim C5 witness: the amended theorem applied to the quoted git
commit command the generator actually runs. -/
theorem claim_C5_amended_witness :
    (regexTokens "git commit -m \"Initial commit: project setup\"".data
      = claimTokens "git commit -m \"Initial commit: project setup\"".data) ∧
    (∀ cmd args,
      claimTokens "git commit -m \"Initial commit: project setup\"".data = cmd :: args →
      runCommandArgs "git commit -m \"Initial commit: project setup\"" = some (cmd, args)) :=
  claim_C5_amended "git commit -m \"Initial commit: project setup\"" (by decide)

/-! ## Claim C9: pre-existing project directory -/

/-- Claim C9.  When a directory with the requested project name
already exists, `fs.promises.mkdir` rejects before any other side
effect: no command is run, no file is written, no manifest is
created, the executed prefix is just the mkdir attempt, the process
exits with status 1, and the initial filesystem state (the
pre-existing directory's contents) is untouched. -/
theorem claim_C9_dir_exists (cfg : Config) (initManifest : Json) (oracle : String → CmdRes) :
    (createProjectRun cfg true initManifest oracle).exitCode = 1 ∧
    (createProjectRun cfg true initManifest oracle).state.cmdsRun = [] ∧
    (createProjectRun cfg true initManifest oracle).state.written = [] ∧
    (createProjectRun cfg true initManifest oracle).state.manifest = none ∧
    (createProjectRun cfg true initManifest oracle).executed
      = [("createProject", Action.mkdirRoot)] ∧
    (createProjectRun cfg true initManifest oracle).message
      = some ("Error creating project: " ++ "EEXIST: file already exists, mkdir") :=
  ⟨rfl, rfl, rfl, rfl, rfl, rfl⟩

/-! ## Claim C10: script merge on a missing manifest -/

/-- Claim C10.  When `package.json` does not exist at the project
path, `addScriptsToPackageJson` throws `File not found: <path>` after
only the existence check — before any read or write — and the
filesystem is left unchanged (the result is the thrown error and no
write operation was performed). -/
theorem claim_C10_missing_manifest (projectPath : String) (scripts : List (String × Json)) :
    (addScriptsToPackageJsonFile projectPath none scripts).2
      = Except.error ("File not found: " ++ projectPath ++ "/package.json") ∧
    (addScriptsToPackageJsonFile projectPath none scripts).1 = [FsOp.existsCheck] ∧
    FsOp.readPackageJson ∉ (addScriptsToPackageJsonFile projectPath none scripts).1 ∧
    FsOp.writePackageJson ∉ (addScriptsToPackageJsonFile projectPath none scripts).1 :=
  ⟨rfl, rfl,
   by show FsOp.readPackageJson ∉ [FsOp.existsCheck]; decide,
   by show FsOp.writePackageJson ∉ [FsOp.existsCheck]; decide⟩

/-! ## Claim C8: the unawaited Tailwind script merge -/

/-- Claim C8 is contradicted by the source (a code slip the spec's
open question itself flags): in the `singleDevScript` branch of
`setupTailwindcss` the `{css}` merge call is fired without `await`
(line 235), so not every Manifest Store invocation is awaited before
the Step continues — e.g. for a JavaScript + Tailwind configuration.
Symmetrically, in the other branch every merge (including
`{"dev:tailwind"}`) is awaited, as the claim demands. -/
theorem claim_C8_unawaited_merge :
    (setupTailwindcssTrace Lang.javascript true).any (fun p => isUnawaitedMerge p.2) = true ∧
    (createProjectTrace ⟨"demo", Lang.javascript, true, false⟩).any
      (fun p => isUnawaitedMerge p.2) = true ∧
    (setupTailwindcssTrace Lang.typescript false).all (fun p => !isUnawaitedMerge p.2) = true ∧
    (createProjectTrace ⟨"demo", Lang.typescript, true, false⟩).all
      (fun p => !isUnawaitedMerge p.2) = true :=
  ⟨by decide, by decide, by decide, by decide⟩

/-! ## Claim C4: the set-module-type step -/

/-- Claim C4, counterexample: `modulePackageJson` (set-module-type)
runs in TypeScript pipelines too — `createNpmProject` calls it
unconditionally — so "JavaScript-variant only" is false. -/
theorem claim_C4_counterexample :
    (createProjectTrace ⟨"demo", Lang.typescript, false, false⟩).any
      (fun p => isSetModuleType p.2) = true ∧
    (createProjectTrace ⟨"demo", Lang.typescript, true, true⟩).any
      (fun p => isSetModuleType p.2) = true :=
  ⟨by decide, by decide⟩

/-- Claim C4 (amended).  The set-module-type step runs for **every**
configuration (both the JavaScript and the TypeScript variant), not
only the JavaScript one; it runs exactly once, after init-npm-project
(`npm init -y` is in the prefix before it) and before any script
merge (the prefix contains none). -/
theorem claim_C4_amended (cfg : Config) :
    ∃ pre post, createProjectTrace cfg
        = pre ++ ("createNpmProject", Action.setModuleType) :: post ∧
      pre.any (fun p => isNpmInit p.2) = true ∧
      pre.all (fun p => !isMergeScripts p.2) = true ∧
      pre.all (fun p => !isSetModuleType p.2) = true ∧
      post.all (fun p => !isSetModuleType p.2) = true := by
  obtain ⟨name, lang, tw, git⟩ := cfg
  have hname : createProjectTrace ⟨name, lang, tw, git⟩
      = createProjectTrace ⟨"", lang, tw, git⟩ := rfl
  rw [hname]
  cases lang <;> cases tw <;> cases git <;>
    exact ⟨[("createProject", Action.mkdirRoot),
            ("createNpmProject", Action.npmInit),
            ("createNpmProject", Action.runCmd
              "npm install --save-dev eslint prettier eslint-config-prettier eslint-config-airbnb eslint-plugin-import")],
           _, rfl, by decide, by decide, by decide, by decide⟩

/-- Claim C4 witness: the amended decomposition at a concrete
configuration. -/
theorem claim_C4_amended_witness :
    ∃ pre post, createProjectTrace ⟨"demo", Lang.typescript, true, true⟩
        = pre ++ ("createNpmProject", Action.setModuleType) :: post ∧
      pre.any (fun p => isNpmInit p.2) = true ∧
      pre.all (fun p => !isMergeScripts p.2) = true ∧
      pre.all (fun p => !isSetModuleType p.2) = true ∧
      post.all (fun p => !isSetModuleType p.2) = true :=
  claim_C4_amended ⟨"demo", Lang.typescript, true, true⟩

/-! ## Claim C3: halting and error reporting on command failure -/

theorem runActions_append_ok (de : Bool) (init : Json) (oracle : String → CmdRes) :
    ∀ (l₁ : List (String × Action)) (st st₁ : PipeState) (ex₁ : List (String × Action)),
      runActions de init oracle st l₁ = (st₁, ex₁, none) →
      ∀ l₂, runActions de init oracle st (l₁ ++ l₂)
        = match runActions de init oracle st₁ l₂ with
          | (st₂, ex₂, err) => (st₂, ex₁ ++ ex₂, err)
  | [], st, st₁, ex₁, h, l₂ => by
    rw [runActions] at h
    injection h with h1 h2
    injection h2 with h2 h3
    subst h1
    subst h2
    rw [List.nil_append]
    rcases hr : runActions de init oracle st l₂ with ⟨st₂, ex₂, err⟩
    rfl
  | (tag, a) :: t, st, st₁, ex₁, h, l₂ => by
    rw [runActions] at h
    rcases hs : stepAction de init oracle st a with msg | st'
    · rw [hs] at h
      dsimp only at h
      injection h with h1 h2
      injection h2 with h2 h3
      exact absurd h3 (by simp)
    · rw [hs] at h
      dsimp only at h
      rcases hr : runActions de init oracle st' t with ⟨stf, ex, err⟩
      rw [hr] at h
      dsimp only at h
      injection h with h1 h2
      injection h2 with h2 h3
      rcases err with _ | e
      · rw [List.cons_append, runActions, hs]
        dsimp only
        rw [runActions_append_ok de init oracle t st' stf ex hr l₂]
        rw [← h1, ← h2]
        rcases hr₂ : runActions de init oracle stf l₂ with ⟨st₂, ex₂, err₂⟩
        rfl
      · exact absurd h3 (by simp)

theorem runActions_fail_head (de : Bool) (init : Json) (oracle : String → CmdRes)
    (st : PipeState) (tag : String) (a : Action) (rest : List (String × Action))
    (msg : String) (h : stepAction de init oracle st a = Except.error msg) :
    runActions de init oracle st ((tag, a) :: rest) = (st, [(tag, a)], some (tag, msg)) := by
  rw [runActions, h]

theorem leadsWith_refl_append : ∀ (n r : List Char), leadsWith n (n ++ r) = true
  | [], _ => rfl
  | a :: as, r => by
    rw [List.cons_append, leadsWith]
    simp [leadsWith_refl_append as r]

theorem containsChars_append : ∀ (pre n post : List Char),
    containsChars n (pre ++ n ++ post) = true
  | [], n, post => by
    rw [List.nil_append]
    rcases n with _ | ⟨m, ms⟩
    · rcases post with _ | ⟨c, t⟩
      · rfl
      · rw [List.nil_append, containsChars]
        simp [leadsWith]
    · rw [List.cons_append, containsChars]
      have hlw := leadsWith_refl_append (m :: ms) post
      rw [List.cons_append] at hlw
      rw [hlw]
      rfl
  | c :: pre, n, post => by
    rw [List.cons_append, List.cons_append, containsChars,
      containsChars_append pre n post]
    simp

theorem containsStr_of_data (m c : String) (pre post : List Char)
    (h : m.data = pre ++ c.data ++ post) : containsStr m c = true := by
  rw [containsStr, h]
  exact containsChars_append _ _ _

/-- Claim C3 (amended).  If the pipeline reaches a `runCommand` whose
command exits with a non-zero status, the pipeline halts at that
action: the executed prefix ends there, nothing after it executes,
the process exits with status 1, and the surfaced error message
carries the failing **command line** together with the exit code —
not the failing Step's name (the original claim's step-name clause
fails; failures inside `createNpmProject` are the one case whose
catch prefix names that step). -/
theorem claim_C3_amended (cfg : Config) (init : Json) (oracle : String → CmdRes)
    (done rest : List (String × Action)) (tag c : String) (st : PipeState) (n : Nat)
    (htrace : createProjectTrace cfg = done ++ (tag, Action.runCmd c) :: rest)
    (hdone : runActions false init oracle pipeInit done = (st, done, none))
    (hfail : oracle c = CmdRes.exit n) (hn : n ≠ 0) :
    (createProjectRun cfg false init oracle).exitCode = 1 ∧
    (createProjectRun cfg false init oracle).executed = done ++ [(tag, Action.runCmd c)] ∧
    ∃ m, (createProjectRun cfg false init oracle).message = some m ∧
      containsStr m c = true := by
  have hstep : stepAction false init oracle st (Action.runCmd c)
      = Except.error ("Command \"" ++ c ++ "\" failed with exit code " ++ toString n) := by
    rw [stepAction, hfail]
    dsimp only
    rw [if_neg hn]
  have hrun : runActions false init oracle pipeInit (createProjectTrace cfg)
      = (st, done ++ [(tag, Action.runCmd c)],
         some (tag, "Command \"" ++ c ++ "\" failed with exit code " ++ toString n)) := by
    rw [htrace, runActions_append_ok false init oracle done pipeInit st done hdone,
      runActions_fail_head false init oracle st tag (Action.runCmd c) rest _ hstep]
  have hdata : ∀ pfx : String,
      (pfx ++ ("Command \"" ++ c ++ "\" failed with exit code " ++ toString n)).data
        = (pfx.data ++ "Command \"".data) ++ c.data
          ++ ("\" failed with exit code ".data ++ (toString n).data) := by
    intro pfx
    simp [String.data_append, List.append_assoc]
  rw [createProjectRun, hrun]
  dsimp only
  by_cases htag : tag = "createNpmProject"
  · rw [if_pos htag]
    exact ⟨rfl, rfl, _, rfl, containsStr_of_data _ _ _ _ (hdata _)⟩
  · rw [if_neg htag]
    exact ⟨rfl, rfl, _, rfl, containsStr_of_data _ _ _ _ (hdata _)⟩

/-- Claim C3, counterexample to the step-name clause as stated: with
`git init` failing (exit 1) in a JavaScript + Git run, the pipeline
halts at `setupGit`'s `git init`, exits with 1, and the surfaced
message is `Error creating project: Command "git init" failed with
exit code 1` — it contains the failing command but neither the source
Step name `setupGit` nor the spec's step name `setup-git`. -/
theorem claim_C3_counterexample :
    (createProjectRun ⟨"demo", Lang.javascript, false, true⟩ false (Json.obj [])
        (fun s => if s = "git init" then CmdRes.exit 1 else CmdRes.ok)).exitCode = 1 ∧
    (createProjectRun ⟨"demo", Lang.javascript, false, true⟩ false (Json.obj [])
        (fun s => if s = "git init" then CmdRes.exit 1 else CmdRes.ok)).message
      = some "Error creating project: Command \"git init\" failed with exit code 1" ∧
    ((createProjectRun ⟨"demo", Lang.javascript, false, true⟩ false (Json.obj [])
        (fun s => if s = "git init" then CmdRes.exit 1 else CmdRes.ok)).executed).map
          (fun p => (p.1, actionLabel p.2))
      = [("createProject", "mkdir"),
         ("createNpmProject", "npm init -y"),
         ("createNpmProject",
          "npm install --save-dev eslint prettier eslint-config-prettier eslint-config-airbnb eslint-plugin-import"),
         ("createNpmProject", "set-module-type"),
         ("createNpmProject", "merge-scripts"),
         ("createEslintConfig", "npm install --save-dev eslint-config-airbnb"),
         ("createEslintConfig", "write .eslintrc.json"),
         ("createPrettierConfig", "write .prettierrc.json"),
         ("setupGit", "write .gitignore"),
         ("setupGit", "git init")] ∧
    containsStr "Error creating project: Command \"git init\" failed with exit code 1"
      "setupGit" = false ∧
    containsStr "Error creating project: Command \"git init\" failed with exit code 1"
      "setup-git" = false :=
  ⟨by decide, by decide, by decide, by decide, by decide⟩

/-- Claim C3 witness: the amended theorem applied to the concrete
failing `git init` run. -/
theorem claim_C3_amended_witness :
    (createProjectRun ⟨"demo", Lang.javascript, false, true⟩ false (Json.obj [])
        (fun s => if s = "git init" then CmdRes.exit 1 else CmdRes.ok)).exitCode = 1 ∧
    (createProjectRun ⟨"demo", Lang.javascript, false, true⟩ false (Json.obj [])
        (fun s => if s = "git init" then CmdRes.exit 1 else CmdRes.ok)).executed
      = [("createProject", Action.mkdirRoot),
         ("createNpmProject", Action.npmInit),
         ("createNpmProject", Action.runCmd
           "npm install --save-dev eslint prettier eslint-config-prettier eslint-config-airbnb eslint-plugin-import"),
         ("createNpmProject", Action.setModuleType),
         ("createNpmProject", Action.mergeScripts
           [("format", Json.str "prettier --write ."), ("lint", Json.str "eslint .")] true),
         ("createEslintConfig", Action.runCmd "npm install --save-dev eslint-config-airbnb"),
         ("createEslintConfig", Action.writePath ".eslintrc.json"),
         ("createPrettierConfig", Action.writePath ".prettierrc.json"),
         ("setupGit", Action.writePath ".gitignore")]
        ++ [("setupGit", Action.runCmd "git init")] ∧
    ∃ m, (createProjectRun ⟨"demo", Lang.javascript, false, true⟩ false (Json.obj [])
        (fun s => if s = "git init" then CmdRes.exit 1 else CmdRes.ok)).message = some m ∧
      containsStr m "git init" = true :=
  claim_C3_amended ⟨"demo", Lang.javascript, false, true⟩ (Json.obj [])
    (fun s => if s = "git init" then CmdRes.exit 1 else CmdRes.ok)
    [("createProject", Action.mkdirRoot),
     ("createNpmProject", Action.npmInit),
     ("createNpmProject", Action.runCmd
       "npm install --save-dev eslint prettier eslint-config-prettier eslint-config-airbnb eslint-plugin-import"),
     ("createNpmProject", Action.setModuleType),
     ("createNpmProject", Action.mergeScripts
       [("format", Json.str "prettier --write ."), ("lint", Json.str "eslint .")] true),
     ("createEslintConfig", Action.runCmd "npm install --save-dev eslint-config-airbnb"),
     ("createEslintConfig", Action.writePath ".eslintrc.json"),
     ("createPrettierConfig", Action.writePath ".prettierrc.json"),
     ("setupGit", Action.writePath ".gitignore")]
    [("setupGit", Action.runCmd "git add ."),
     ("setupGit", Action.runCmd "git commit -m \"Initial commit: project setup\""),
     ("setupGit", Action.runCmd "git checkout -b dev")]
    "setupGit" "git init"
    ⟨true,
     some (addScriptsToPackageJson (modulePackageJson (Json.obj []))
       [("format", Json.str "prettier --write ."), ("lint", Json.str "eslint .")]),
     [".eslintrc.json", ".prettierrc.json", ".gitignore"],
     ["npm init -y",
      "npm install --save-dev eslint prettier eslint-config-prettier eslint-config-airbnb eslint-plugin-import",
      "npm install --save-dev eslint-config-airbnb"]⟩
    1 rfl rfl rfl (by decide)

/-! ## Claim C2: Scenario C (TypeScript + Tailwind) -/

theorem addScripts_lookup (fields S A : List (String × Json))
    (hSf : scriptsOfFields fields = S) (hndS : (keysOf S).Nodup)
    (hndA : (keysOf A).Nodup) (k : String) :
    jsLookup (scriptsOf (addScriptsToPackageJson (Json.obj fields) A)) k
      = (jsLookup A k).or (jsLookup S k) := by
  rw [scriptsOf_addScripts, hSf, rebuiltScripts_lookup _ (spreadMerge_nodup S A),
    spreadMerge_lookup S A hndS hndA]

/-- Claim C2.  For `language = TypeScript`, `useTailwind = true`:
`singleDevScript` is `false`; the run succeeds (all commands OK) and
the final manifest's scripts map `dev` to `run-p dev:*`, contain
`dev:typescript` and `dev:tailwind` plus `format` and `lint`, never
the single-key `dev = "tsc -w"` form, and the pipeline adds no `build`
or `typecheck` key (those can only come from the initial manifest). -/
theorem claim_C2_scenarioC (name : String) (git : Bool) (fields S : List (String × Json))
    (hS : jsLookup fields "scripts" = some (Json.obj S) ∨
          (jsLookup fields "scripts" = none ∧ S = []))
    (hndS : (keysOf S).Nodup) :
    singleDevScript ⟨name, Lang.typescript, true, git⟩ = false ∧
    (createProjectRun ⟨name, Lang.typescript, true, git⟩ false (Json.obj fields)
        (fun _ => CmdRes.ok)).exitCode = 0 ∧
    ∃ m, (createProjectRun ⟨name, Lang.typescript, true, git⟩ false (Json.obj fields)
        (fun _ => CmdRes.ok)).state.manifest = some m ∧
      jsLookup (scriptsOf m) "dev" = some (Json.str "run-p dev:*") ∧
      jsLookup (scriptsOf m) "dev:typescript" = some (Json.str "tsc -w") ∧
      jsLookup (scriptsOf m) "dev:tailwind"
        = some (Json.str "tailwindcss -i ./src/styles/tailwind.css -o ./build/output.css --watch") ∧
      jsLookup (scriptsOf m) "format" = some (Json.str "prettier --write .") ∧
      jsLookup (scriptsOf m) "lint" = some (Json.str "eslint .") ∧
      jsLookup (scriptsOf m) "dev" ≠ some (Json.str "tsc -w") ∧
      jsLookup (scriptsOf m) "build" = jsLookup S "build" ∧
      jsLookup (scriptsOf m) "typecheck" = jsLookup S "typecheck" := by
  have hsingle : singleDevScript ⟨name, Lang.typescript, true, git⟩ = false := rfl
  have hexit : (createProjectRun ⟨name, Lang.typescript, true, git⟩ false (Json.obj fields)
      (fun _ => CmdRes.ok)).exitCode = 0 := by
    cases git <;> rfl
  have hm : (createProjectRun ⟨name, Lang.typescript, true, git⟩ false (Json.obj fields)
      (fun _ => CmdRes.ok)).state.manifest
      = some (addScriptsToPackageJson (addScriptsToPackageJson (addScriptsToPackageJson
          (addScriptsToPackageJson (modulePackageJson (Json.obj fields))
            [("format", Json.str "prettier --write ."), ("lint", Json.str "eslint .")])
            [("dev", Json.str "run-p dev:*")])
            [("dev:typescript", Json.str "tsc -w")])
            [("dev:tailwind",
              Json.str "tailwindcss -i ./src/styles/tailwind.css -o ./build/output.css --watch")]) := by
    cases git <;> rfl
  refine ⟨hsingle, hexit, _, hm, ?_⟩
  have hnone_or : ∀ o : Option Json, Option.or none o = o := fun o => rfl
  have hsome_or : ∀ (v : Json) (o : Option Json), Option.or (some v) o = some v :=
    fun v o => rfl
  have h₁ : modulePackageJson (Json.obj fields)
      = Json.obj (jsInsert fields "type" (Json.str "module")) := rfl
  have hSf₁ : scriptsOfFields (jsInsert fields "type" (Json.str "module")) = S := by
    have hlk : jsLookup (jsInsert fields "type" (Json.str "module")) "scripts"
        = jsLookup fields "scripts" :=
      jsLookup_jsInsert_other fields "type" (Json.str "module") "scripts" (by decide)
    rcases hS with hS | ⟨hS, rfl⟩
    · rw [scriptsOfFields, hlk, hS]
    · rw [scriptsOfFields, hlk, hS]
  -- stage 1: merge {format, lint}
  rw [h₁]
  rw [addScripts_obj _ _, hSf₁]
  set R₁ := rebuiltScripts (spreadMerge S
    [("format", Json.str "prettier --write ."), ("lint", Json.str "eslint .")]) with hR₁
  have hL₁ : ∀ k, jsLookup R₁ k
      = (jsLookup [("format", Json.str "prettier --write ."),
          ("lint", Json.str "eslint .")] k).or (jsLookup S k) := by
    intro k
    rw [hR₁, rebuiltScripts_lookup _ (spreadMerge_nodup _ _),
      spreadMerge_lookup _ _ hndS (by decide)]
  have hSf₂ : scriptsOfFields (jsInsert (jsInsert fields "type" (Json.str "module"))
      "scripts" (Json.obj R₁)) = R₁ := by
    rw [scriptsOfFields, jsLookup_jsInsert_self]
  -- stage 2: merge {dev}
  rw [addScripts_obj _ _, hSf₂]
  set R₂ := rebuiltScripts (spreadMerge R₁ [("dev", Json.str "run-p dev:*")]) with hR₂
  have hL₂ : ∀ k, jsLookup R₂ k
      = (jsLookup [("dev", Json.str "run-p dev:*")] k).or (jsLookup R₁ k) := by
    intro k
    rw [hR₂, rebuiltScripts_lookup _ (spreadMerge_nodup _ _),
      spreadMerge_lookup _ _ (by rw [hR₁]; exact rebuiltScripts_nodup _) (by decide)]
  have hSf₃ : scriptsOfFields (jsInsert (jsInsert (jsInsert fields "type" (Json.str "module"))
      "scripts" (Json.obj R₁)) "scripts" (Json.obj R₂)) = R₂ := by
    rw [scriptsOfFields, jsLookup_jsInsert_self]
  -- stage 3: merge {dev:typescript}
  rw [addScripts_obj _ _, hSf₃]
  set R₃ := rebuiltScripts (spreadMerge R₂ [("dev:typescript", Json.str "tsc -w")]) with hR₃
  have hL₃ : ∀ k, jsLookup R₃ k
      = (jsLookup [("dev:typescript", Json.str "tsc -w")] k).or (jsLookup R₂ k) := by
    intro k
    rw [hR₃, rebuiltScripts_lookup _ (spreadMerge_nodup _ _),
      spreadMerge_lookup _ _ (by rw [hR₂]; exact rebuiltScripts_nodup _) (by decide)]
  have hSf₄ : scriptsOfFields (jsInsert (jsInsert (jsInsert (jsInsert fields "type"
      (Json.str "module")) "scripts" (Json.obj R₁)) "scripts" (Json.obj R₂))
      "scripts" (Json.obj R₃)) = R₃ := by
    rw [scriptsOfFields, jsLookup_jsInsert_self]
  -- stage 4: merge {dev:tailwind}
  rw [addScripts_obj _ _, hSf₄]
  set R₄ := rebuiltScripts (spreadMerge R₃
    [("dev:tailwind",
      Json.str "tailwindcss -i ./src/styles/tailwind.css -o ./build/output.css --watch")]) with hR₄
  have hL₄ : ∀ k, jsLookup R₄ k
      = (jsLookup [("dev:tailwind",
          Json.str "tailwindcss -i ./src/styles/tailwind.css -o ./build/output.css --watch")] k).or
          (jsLookup R₃ k) := by
    intro k
    rw [hR₄, rebuiltScripts_lookup _ (spreadMerge_nodup _ _),
      spreadMerge_lookup _ _ (by rw [hR₃]; exact rebuiltScripts_nodup _) (by decide)]
  have hscr : scriptsOf (Json.obj (jsInsert (jsInsert (jsInsert (jsInsert (jsInsert fields
      "type" (Json.str "module")) "scripts" (Json.obj R₁)) "scripts" (Json.obj R₂))
      "scripts" (Json.obj R₃)) "scripts" (Json.obj R₄))) = R₄ := by
    rw [scriptsOf, scriptsOfFields, jsLookup_jsInsert_self]
  rw [hscr]
  have hdev : jsLookup R₄ "dev" = some (Json.str "run-p dev:*") := by
    rw [hL₄]
    show Option.or none (jsLookup R₃ "dev") = _
    rw [hnone_or, hL₃]
    show Option.or none (jsLookup R₂ "dev") = _
    rw [hnone_or, hL₂]
    rfl
  refine ⟨hdev, ?_, ?_, ?_, ?_, ?_, ?_, ?_⟩
  · rw [hL₄]
    show Option.or none (jsLookup R₃ "dev:typescript") = _
    rw [hnone_or, hL₃]
    rfl
  · rw [hL₄]
    rfl
  · rw [hL₄]
    show Option.or none (jsLookup R₃ "format") = _
    rw [hnone_or, hL₃]
    show Option.or none (jsLookup R₂ "format") = _
    rw [hnone_or, hL₂]
    show Option.or none (jsLookup R₁ "format") = _
    rw [hnone_or, hL₁]
    rfl
  · rw [hL₄]
    show Option.or none (jsLookup R₃ "lint") = _
    rw [hnone_or, hL₃]
    show Option.or none (jsLookup R₂ "lint") = _
    rw [hnone_or, hL₂]
    show Option.or none (jsLookup R₁ "lint") = _
    rw [hnone_or, hL₁]
    rfl
  · rw [hdev]
    intro hcontra
    simp only [Option.some.injEq, Json.str.injEq] at hcontra
    exact absurd hcontra (by decide)
  · rw [hL₄]
    show Option.or none (jsLookup R₃ "build") = _
    rw [hnone_or, hL₃]
    show Option.or none (jsLookup R₂ "build") = _
    rw [hnone_or, hL₂]
    show Option.or none (jsLookup R₁ "build") = _
    rw [hnone_or, hL₁]
    show Option.or none (jsLookup S "build") = _
    rw [hnone_or]
  · rw [hL₄]
    show Option.or none (jsLookup R₃ "typecheck") = _
    rw [hnone_or, hL₃]
    show Option.or none (jsLookup R₂ "typecheck") = _
    rw [hnone_or, hL₂]
    show Option.or none (jsLookup R₁ "typecheck") = _
    rw [hnone_or, hL₁]
    show Option.or none (jsLookup S "typecheck") = _
    rw [hnone_or]

/-- Claim C2 witness: Scenario C at a concrete initial manifest. -/
theorem claim_C2_scenarioC_witness :
    singleDevScript ⟨"demo", Lang.typescript, true, false⟩ = false ∧
    (createProjectRun ⟨"demo", Lang.typescript, true, false⟩ false
        (Json.obj [("scripts", Json.obj [])]) (fun _ => CmdRes.ok)).exitCode = 0 ∧
    ∃ m, (createProjectRun ⟨"demo", Lang.typescript, true, false⟩ false
        (Json.obj [("scripts", Json.obj [])]) (fun _ => CmdRes.ok)).state.manifest = some m ∧
      jsLookup (scriptsOf m) "dev" = some (Json.str "run-p dev:*") ∧
      jsLookup (scriptsOf m) "dev:typescript" = some (Json.str "tsc -w") ∧
      jsLookup (scriptsOf m) "dev:tailwind"
        = some (Json.str "tailwindcss -i ./src/styles/tailwind.css -o ./build/output.css --watch") ∧
      jsLookup (scriptsOf m) "format" = some (Json.str "prettier --write .") ∧
      jsLookup (scriptsOf m) "lint" = some (Json.str "eslint .") ∧
      jsLookup (scriptsOf m) "dev" ≠ some (Json.str "tsc -w") ∧
      jsLookup (scriptsOf m) "build" = jsLookup ([] : List (String × Json)) "build" ∧
      jsLookup (scriptsOf m) "typecheck" = jsLookup ([] : List (String × Json)) "typecheck" :=
  claim_C2_scenarioC "demo" false [("scripts", Json.obj [])] [] (Or.inl rfl) (by decide)

/-! ## Claim C7: character, whitespace and digit groundwork -/

theorem charEq_of_toNat {a b : Char} (h : a.toNat = b.toNat) : a = b :=
  Char.eq_of_val_eq (UInt32.ext h)

theorem char_ofNat_toNat {n : Nat} (h : n < 55296) : (Char.ofNat n).toNat = n := by
  unfold Char.ofNat
  rw [dif_pos (Or.inl h)]
  rfl

theorem digitChar_toNat {d : Nat} (hd : d < 10) : (Nat.digitChar d).toNat = 48 + d := by
  interval_cases d <;> decide

theorem isDigitChar_digitChar {d : Nat} (hd : d < 10) :
    isDigitChar (Nat.digitChar d) = true := by
  interval_cases d <;> decide

theorem hexVal_digitChar {d : Nat} (hd : d < 16) : hexVal (Nat.digitChar d) = some d := by
  interval_cases d <;> decide

theorem not_ws_of_digit {c : Char} (h : isDigitChar c = true) : jsonWS c = false := by
  unfold jsonWS
  simp only [Bool.or_eq_false_iff, decide_eq_false_iff_not]
  refine ⟨⟨⟨?_, ?_⟩, ?_⟩, ?_⟩ <;> intro hc <;> subst hc <;> revert h <;> decide

theorem digit_ne {c x : Char} (h : isDigitChar c = true)
    (hx : x.toNat < 48 ∨ 57 < x.toNat) : ¬ c = x := by
  intro hc
  subst hc
  unfold isDigitChar at h
  simp only [Bool.and_eq_true, decide_eq_true_eq] at h
  omega

theorem skipWS_cons_not_ws {c : Char} (h : jsonWS c = false) (l : List Char) :
    skipWS (c :: l) = c :: l := by
  simp [skipWS, List.dropWhile_cons, h]

theorem skipWS_cons_ws {c : Char} (h : jsonWS c = true) (l : List Char) :
    skipWS (c :: l) = skipWS l := by
  simp [skipWS, List.dropWhile_cons, h]

theorem skipWS_indent (n : Nat) (l : List Char) :
    skipWS (indentChars n ++ l) = skipWS l := by
  induction n with
  | zero => rfl
  | succ m ih =>
    show skipWS (' ' :: (indentChars m ++ l)) = skipWS l
    rw [skipWS_cons_ws (by decide)]
    exact ih

theorem stringMk_data : ∀ (s : String), String.mk s.data = s
  | ⟨_⟩ => rfl

/-! ## Claim C7: the decimal number token round-trips -/

theorem digitsVal_append_digit (a : List Char) (d : Char) :
    digitsVal (a ++ [d]) = digitsVal a * 10 + (d.toNat - 48) := by
  unfold digitsVal
  rw [List.foldl_append]
  rfl

theorem natDigitsGo_spec : ∀ (fuel n : Nat), n < fuel →
    (∀ c ∈ natDigitsGo fuel n, isDigitChar c = true) ∧
    digitsVal (natDigitsGo fuel n) = n ∧ natDigitsGo fuel n ≠ []
  | 0, n, h => absurd h (Nat.not_lt_zero n)
  | fuel + 1, n, h => by
    rw [natDigitsGo]
    by_cases h10 : n < 10
    · rw [if_pos h10]
      refine ⟨?_, ?_, by simp⟩
      · intro c hc
        rw [List.mem_singleton] at hc
        subst hc
        exact isDigitChar_digitChar h10
      · show 0 * 10 + ((Nat.digitChar n).toNat - 48) = n
        rw [digitChar_toNat h10]
        omega
    · rw [if_neg h10]
      have hrec := natDigitsGo_spec fuel (n / 10) (by omega)
      refine ⟨?_, ?_, by simp⟩
      · intro c hc
        rw [List.mem_append] at hc
        rcases hc with hc | hc
        · exact hrec.1 c hc
        · rw [List.mem_singleton] at hc
          subst hc
          exact isDigitChar_digitChar (Nat.mod_lt n (by omega))
      · rw [digitsVal_append_digit, hrec.2.1, digitChar_toNat (Nat.mod_lt n (by omega))]
        omega

theorem natDigits_spec (n : Nat) :
    (∀ c ∈ natDigits n, isDigitChar c = true) ∧
    digitsVal (natDigits n) = n ∧ natDigits n ≠ [] :=
  natDigitsGo_spec (n + 1) n (Nat.lt_succ_self n)

theorem takeWhile_append_all (p : Char → Bool) : ∀ (a b : List Char),
    (∀ c ∈ a, p c = true) → (a ++ b).takeWhile p = a ++ b.takeWhile p
  | [], _, _ => rfl
  | c :: t, b, h => by
    rw [List.cons_append, List.takeWhile_cons, h c (List.mem_cons_self _ _),
      takeWhile_append_all p t b (fun c hc => h c (List.mem_cons_of_mem _ hc))]
    rfl

theorem dropWhile_append_all (p : Char → Bool) : ∀ (a b : List Char),
    (∀ c ∈ a, p c = true) → (a ++ b).dropWhile p = b.dropWhile p
  | [], _, _ => rfl
  | c :: t, b, h => by
    rw [List.cons_append, List.dropWhile_cons, h c (List.mem_cons_self _ _)]
    exact dropWhile_append_all p t b (fun c hc => h c (List.mem_cons_of_mem _ hc))

theorem parseNatTok_digits (a rest : List Char) (hne : a ≠ [])
    (hdig : ∀ c ∈ a, isDigitChar c = true) (hrest : noDigitHead rest = true) :
    parseNatTok (a ++ rest) = some (digitsVal a, rest) := by
  have hrtw : rest.takeWhile isDigitChar = [] ∧ rest.dropWhile isDigitChar = rest := by
    cases rest with
    | nil => exact ⟨rfl, rfl⟩
    | cons d r =>
      unfold noDigitHead at hrest
      dsimp only at hrest
      simp only [Bool.not_eq_true'] at hrest
      rw [List.takeWhile_cons, List.dropWhile_cons, hrest]
      exact ⟨rfl, rfl⟩
  have htw : (a ++ rest).takeWhile isDigitChar = a := by
    rw [takeWhile_append_all isDigitChar a rest hdig, hrtw.1, List.append_nil]
  have hdw : (a ++ rest).dropWhile isDigitChar = rest := by
    rw [dropWhile_append_all isDigitChar a rest hdig, hrtw.2]
  unfold parseNatTok
  rw [htw, hdw, if_neg (by simp [hne])]

/-! ## Claim C7: the quoted string body round-trips -/

theorem escChar_length (c : Char) : 1 ≤ (escChar c).length := by
  unfold escChar
  repeat' split
  all_goals simp

theorem length_le_flatMap_esc : ∀ (cs : List Char), cs.length ≤ (cs.flatMap escChar).length
  | [] => Nat.le_refl 0
  | c :: t => by
    rw [List.flatMap_cons, List.length_append, List.length_cons]
    have h1 := length_le_flatMap_esc t
    have h2 := escChar_length c
    omega

theorem parseStringBody_step_plain {c : Char} (hq : ¬ c = '"') (hb : ¬ c = '\\')
    (hc : ¬ c.toNat < 32) (f : Nat) (t : List Char) :
    parseStringBody (f + 1) (c :: t) =
      Option.map (fun p => (c :: p.1, p.2)) (parseStringBody f t) := by
  rw [parseStringBody.eq_def]
  dsimp only
  rw [if_neg hq, if_neg hb, if_neg hc]
  cases parseStringBody f t with
  | none => rfl
  | some p => rfl

theorem parseStringBody_step_esc {e d : Char} (hu : ¬ e = 'u')
    (hinv : escCharInv e = some d) (f : Nat) (t : List Char) :
    parseStringBody (f + 1) ('\\' :: e :: t) =
      Option.map (fun p => (d :: p.1, p.2)) (parseStringBody f t) := by
  rw [parseStringBody.eq_def]
  dsimp only
  rw [if_neg (show ¬('\\' : Char) = '"' by decide),
    if_pos (show ('\\' : Char) = '\\' from rfl), if_neg hu, hinv]
  dsimp only
  cases parseStringBody f t with
  | none => rfl
  | some p => rfl

theorem parseStringBody_step_u {h₁ h₂ h₃ h₄ : Char} {a b c' d : Nat}
    (hv₁ : hexVal h₁ = some a) (hv₂ : hexVal h₂ = some b)
    (hv₃ : hexVal h₃ = some c') (hv₄ : hexVal h₄ = some d)
    (hlt : ((a * 16 + b) * 16 + c') * 16 + d < 55296) (f : Nat) (t : List Char) :
    parseStringBody (f + 1) ('\\' :: 'u' :: h₁ :: h₂ :: h₃ :: h₄ :: t) =
      Option.map (fun p => (Char.ofNat (((a * 16 + b) * 16 + c') * 16 + d) :: p.1, p.2))
        (parseStringBody f t) := by
  rw [parseStringBody.eq_def]
  dsimp only
  rw [if_neg (show ¬('\\' : Char) = '"' by decide),
    if_pos (show ('\\' : Char) = '\\' from rfl),
    if_pos (show ('u' : Char) = 'u' from rfl), hv₁, hv₂, hv₃, hv₄]
  dsimp only
  rw [if_pos (Or.inl hlt)]
  cases parseStringBody f t with
  | none => rfl
  | some p => rfl

theorem parseStringBody_esc : ∀ (cs : List Char) (fuel : Nat), cs.length < fuel →
    ∀ (rest : List Char),
    parseStringBody fuel (cs.flatMap escChar ++ ('"' :: rest)) = some (cs, rest)
  | [], fuel, hf, rest => by
    rcases fuel with _ | f
    · exact absurd hf (by omega)
    · rw [List.flatMap_nil, List.nil_append, parseStringBody.eq_def]
      dsimp only
      rw [if_pos rfl]
  | c :: cs, fuel, hf, rest => by
    rcases fuel with _ | f
    · exact absurd hf (by omega)
    have ih := parseStringBody_esc cs f (by rw [List.length_cons] at hf; omega) rest
    rw [List.flatMap_cons, List.append_assoc]
    by_cases hq : c = '"'
    · subst hq
      have he : escChar '"' ++ (cs.flatMap escChar ++ ('"' :: rest)) =
          '\\' :: '"' :: (cs.flatMap escChar ++ ('"' :: rest)) := rfl
      rw [he, parseStringBody_step_esc (by decide)
        (show escCharInv '"' = some '"' from rfl), ih]
      rfl
    by_cases hbs : c = '\\'
    · subst hbs
      have he : escChar '\\' ++ (cs.flatMap escChar ++ ('"' :: rest)) =
          '\\' :: '\\' :: (cs.flatMap escChar ++ ('"' :: rest)) := rfl
      rw [he, parseStringBody_step_esc (by decide)
        (show escCharInv '\\' = some '\\' from rfl), ih]
      rfl
    by_cases h8 : c.toNat = 8
    · have hc8 : c = Char.ofNat 8 := charEq_of_toNat (by rw [h8]; decide)
      subst hc8
      have he : escChar (Char.ofNat 8) ++ (cs.flatMap escChar ++ ('"' :: rest)) =
          '\\' :: 'b' :: (cs.flatMap escChar ++ ('"' :: rest)) := rfl
      rw [he, parseStringBody_step_esc (by decide)
        (show escCharInv 'b' = some (Char.ofNat 8) from rfl), ih]
      rfl
    by_cases h9 : c.toNat = 9
    · have hc9 : c = '\t' := charEq_of_toNat (by rw [h9]; decide)
      subst hc9
      have he : escChar '\t' ++ (cs.flatMap escChar ++ ('"' :: rest)) =
          '\\' :: 't' :: (cs.flatMap escChar ++ ('"' :: rest)) := rfl
      rw [he, parseStringBody_step_esc (by decide)
        (show escCharInv 't' = some '\t' from rfl), ih]
      rfl
    by_cases h10 : c.toNat = 10
    · have hc10 : c = '\n' := charEq_of_toNat (by rw [h10]; decide)
      subst hc10
      have he : escChar '\n' ++ (cs.flatMap escChar ++ ('"' :: rest)) =
          '\\' :: 'n' :: (cs.flatMap escChar ++ ('"' :: rest)) := rfl
      rw [he, parseStringBody_step_esc (by decide)
        (show escCharInv 'n' = some '\n' from rfl), ih]
      rfl
    by_cases h12 : c.toNat = 12
    · have hc12 : c = Char.ofNat 12 := charEq_of_toNat (by rw [h12]; decide)
      subst hc12
      have he : escChar (Char.ofNat 12) ++ (cs.flatMap escChar ++ ('"' :: rest)) =
          '\\' :: 'f' :: (cs.flatMap escChar ++ ('"' :: rest)) := rfl
      rw [he, parseStringBody_step_esc (by decide)
        (show escCharInv 'f' = some (Char.ofNat 12) from rfl), ih]
      rfl
    by_cases h13 : c.toNat = 13
    · have hc13 : c = Char.ofNat 13 := charEq_of_toNat (by rw [h13]; decide)
      subst hc13
      have he : escChar (Char.ofNat 13) ++ (cs.flatMap escChar ++ ('"' :: rest)) =
          '\\' :: 'r' :: (cs.flatMap escChar ++ ('"' :: rest)) := rfl
      rw [he, parseStringBody_step_esc (by decide)
        (show escCharInv 'r' = some (Char.ofNat 13) from rfl), ih]
      rfl
    by_cases hlt : c.toNat < 32
    · have hesc : escChar c =
          ['\\', 'u', '0', '0', Nat.digitChar (c.toNat / 16), Nat.digitChar (c.toNat % 16)] := by
        unfold escChar
        rw [if_neg hq, if_neg hbs, if_neg h8, if_neg h9, if_neg h10, if_neg h12, if_neg h13,
          if_pos hlt]
      rw [hesc]
      simp only [List.cons_append, List.nil_append]
      rw [parseStringBody_step_u (show hexVal '0' = some 0 from rfl)
        (show hexVal '0' = some 0 from rfl) (hexVal_digitChar (by omega))
        (hexVal_digitChar (by omega)) (by omega), ih]
      have hX : ((0 * 16 + 0) * 16 + c.toNat / 16) * 16 + c.toNat % 16 = c.toNat := by omega
      rw [hX, charEq_of_toNat (char_ofNat_toNat (by omega) : (Char.ofNat c.toNat).toNat = c.toNat)]
      rfl
    · have hesc : escChar c = [c] := by
        unfold escChar
        rw [if_neg hq, if_neg hbs, if_neg h8, if_neg h9, if_neg h10, if_neg h12, if_neg h13,
          if_neg hlt]
      rw [hesc, List.singleton_append, parseStringBody_step_plain hq hbs hlt, ih]
      rfl

/-! ## Claim C7: serializer head characters and whitespace congruence -/

theorem serVal_head (ind : Nat) (v : Json) : ∃ c t, serVal ind v = c :: t ∧
    jsonWS c = false ∧ ¬ c = ']' ∧ ¬ c = '\x7d' := by
  cases v with
  | str s =>
    exact ⟨'"', s.data.flatMap escChar ++ ['"'], by simp [serVal, quoteChars],
      by decide, by decide, by decide⟩
  | num n =>
    by_cases hn : n < 0
    · exact ⟨'-', natDigits n.natAbs, by simp [serVal, intChars, hn],
        by decide, by decide, by decide⟩
    · have hspec := natDigits_spec n.natAbs
      obtain ⟨d, ds, hds⟩ : ∃ d ds, natDigits n.natAbs = d :: ds := by
        cases h : natDigits n.natAbs with
        | nil => exact absurd h hspec.2.2
        | cons d ds => exact ⟨d, ds, rfl⟩
      have hd : isDigitChar d = true := hspec.1 d (by rw [hds]; exact List.mem_cons_self _ _)
      refine ⟨d, ds, ?_, not_ws_of_digit hd, digit_ne hd (by decide), digit_ne hd (by decide)⟩
      simp [serVal, intChars, hn, hds]
  | bool b =>
    cases b with
    | true => exact ⟨'t', ['r', 'u', 'e'], by simp [serVal], by decide, by decide, by decide⟩
    | false =>
      exact ⟨'f', ['a', 'l', 's', 'e'], by simp [serVal], by decide, by decide, by decide⟩
  | null => exact ⟨'n', ['u', 'l', 'l'], by simp [serVal], by decide, by decide, by decide⟩
  | arr xs =>
    cases xs with
    | nil => exact ⟨'[', [']'], by simp [serVal], by decide, by decide, by decide⟩
    | cons x t =>
      exact ⟨'[', '\n' :: (indentChars (ind + 2) ++ (serVal (ind + 2) x ++
        (serItems (ind + 2) t ++ ('\n' :: (indentChars ind ++ [']']))))),
        by simp [serVal], by decide, by decide, by decide⟩
  | obj ps =>
    cases ps with
    | nil => exact ⟨'\x7b', ['\x7d'], by simp [serVal], by decide, by decide, by decide⟩
    | cons p t =>
      exact ⟨'\x7b', '\n' :: (indentChars (ind + 2) ++ (serMember (ind + 2) p ++
        (serMembers (ind + 2) t ++ ('\n' :: (indentChars ind ++ ['\x7d']))))),
        by simp [serVal], by decide, by decide, by decide⟩

theorem serVal_length_pos (ind : Nat) (v : Json) : 1 ≤ (serVal ind v).length := by
  obtain ⟨c, t, hct, -, -, -⟩ := serVal_head ind v
  rw [hct]
  simp

theorem skipWS_serVal (ind : Nat) (v : Json) (rest : List Char) :
    skipWS (serVal ind v ++ rest) = serVal ind v ++ rest := by
  obtain ⟨c, t, hct, hws, -, -⟩ := serVal_head ind v
  rw [hct, List.cons_append, skipWS_cons_not_ws hws, ← List.cons_append, ← hct]

theorem parseVal_congr_ws : ∀ (fuel : Nat) {l₁ l₂ : List Char}, skipWS l₁ = skipWS l₂ →
    parseVal fuel l₁ = parseVal fuel l₂
  | 0, _, _, _ => rfl
  | fuel + 1, l₁, l₂, h => by
    conv_lhs => rw [parseVal]
    conv_rhs => rw [parseVal]
    rw [h]

theorem parseMembers_congr_ws : ∀ (fuel : Nat) {l₁ l₂ : List Char},
    skipWS l₁ = skipWS l₂ → parseMembers fuel l₁ = parseMembers fuel l₂
  | 0, _, _, _ => rfl
  | fuel + 1, l₁, l₂, h => by
    conv_lhs => rw [parseMembers]
    conv_rhs => rw [parseMembers]
    rw [h]

theorem parseItems_congr_ws : ∀ (fuel : Nat) {l₁ l₂ : List Char},
    skipWS l₁ = skipWS l₂ → parseItems fuel l₁ = parseItems fuel l₂
  | 0, _, _, _ => rfl
  | fuel + 1, l₁, l₂, h => by
    conv_lhs => rw [parseItems]
    conv_rhs => rw [parseItems]
    rw [parseVal_congr_ws fuel h]

/-! ## Claim C7: auxiliary facts about the serialized shape -/

theorem noDigitHead_serMembers (ind : Nat) (ps : List (String × Json)) (x : List Char) :
    noDigitHead (serMembers ind ps ++ ('\n' :: x)) = true := by
  cases ps with
  | nil => rfl
  | cons p t => rfl

theorem noDigitHead_serItems (ind : Nat) (xs : List Json) (x : List Char) :
    noDigitHead (serItems ind xs ++ ('\n' :: x)) = true := by
  cases xs with
  | nil => rfl
  | cons q t => rfl

theorem serMember_head (ind : Nat) (p : String × Json) :
    serMember ind p =
      '"' :: (p.1.data.flatMap escChar ++ ('"' :: (':' :: ' ' :: serVal ind p.2))) := by
  simp [serMember, quoteChars]

theorem serMember_length (ind : Nat) (p : String × Json) :
    (serVal ind p.2).length + 4 ≤ (serMember ind p).length := by
  rw [serMember_head]
  simp [List.length_append]

theorem serMembers_cons_length (ind : Nat) (q : String × Json) (qs : List (String × Json)) :
    (serMember ind q).length + (serMembers ind qs).length + 2 ≤
      (serMembers ind (q :: qs)).length := by
  simp [serMembers, indentChars, List.length_append]

theorem serItems_cons_length (ind : Nat) (q : Json) (qs : List Json) :
    (serVal ind q).length + (serItems ind qs).length + 2 ≤ (serItems ind (q :: qs)).length := by
  simp [serItems, indentChars, List.length_append]

theorem serVal_obj_cons_length (ind : Nat) (p : String × Json) (t : List (String × Json)) :
    (serMember (ind + 2) p).length + (serMembers (ind + 2) t).length + 4 ≤
      (serVal ind (Json.obj (p :: t))).length := by
  simp [serVal, indentChars, List.length_append]
  omega

theorem serVal_arr_cons_length (ind : Nat) (x : Json) (xs : List Json) :
    (serVal (ind + 2) x).length + (serItems (ind + 2) xs).length + 4 ≤
      (serVal ind (Json.arr (x :: xs))).length := by
  simp [serVal, indentChars, List.length_append]
  omega

/-! ## Claim C7: parsing inverts serialization

The three mutually recursive statements mirror the three mutually
recursive parser functions: a serialized value, member group or item
group placed in its serialized context parses back to exactly the
value it came from.  The fuel hypotheses are satisfied by any fuel
exceeding the serialized length. -/

theorem sizeOf_snd_lt_pair (p : String × Json) : sizeOf p.2 < sizeOf p := by
  obtain ⟨a, b⟩ := p
  simp

mutual
theorem parseVal_ser (v : Json) (hw : JsonWF v) : ∀ (ind fuel : Nat) (rest : List Char),
    noDigitHead rest = true → (serVal ind v).length < fuel →
    parseVal fuel (serVal ind v ++ rest) = some (v, rest) := by
  cases hw with
  | str s =>
    intro ind fuel rest hnd hb
    rcases fuel with _ | f
    · exact absurd hb (by omega)
    simp only [serVal, quoteChars, List.cons_append, List.append_assoc, List.singleton_append,
      List.nil_append]
    rw [parseVal, skipWS_cons_not_ws (by decide)]
    dsimp only
    rw [if_pos rfl]
    have hf : s.data.length < (s.data.flatMap escChar ++ ('"' :: rest)).length + 1 := by
      have := length_le_flatMap_esc s.data
      simp only [List.length_append, List.length_cons]
      omega
    rw [parseStringBody_esc s.data _ hf rest]
  | num n =>
    intro ind fuel rest hnd hb
    rcases fuel with _ | f
    · exact absurd hb (by omega)
    by_cases hneg : n < 0
    · simp only [serVal, intChars]
      rw [if_pos hneg, List.cons_append, parseVal, skipWS_cons_not_ws (by decide)]
      dsimp only
      rw [if_neg (show ¬('-' : Char) = '"' by decide),
        if_neg (show ¬('-' : Char) = '\x7b' by decide),
        if_neg (show ¬('-' : Char) = '[' by decide),
        if_neg (show ¬('-' : Char) = 't' by decide),
        if_neg (show ¬('-' : Char) = 'f' by decide),
        if_neg (show ¬('-' : Char) = 'n' by decide),
        if_pos (show ('-' : Char) = '-' from rfl)]
      rw [parseNatTok_digits (natDigits n.natAbs) rest (natDigits_spec n.natAbs).2.2
        (natDigits_spec n.natAbs).1 hnd]
      dsimp only
      rw [(natDigits_spec n.natAbs).2.1,
        show -((n.natAbs : Int)) = n by omega]
    · simp only [serVal, intChars]
      rw [if_neg hneg]
      have hspec := natDigits_spec n.natAbs
      obtain ⟨d, ds, hds⟩ : ∃ d ds, natDigits n.natAbs = d :: ds := by
        cases h : natDigits n.natAbs with
        | nil => exact absurd h hspec.2.2
        | cons d ds => exact ⟨d, ds, rfl⟩
      have hd : isDigitChar d = true := hspec.1 d (by rw [hds]; exact List.mem_cons_self _ _)
      rw [hds, List.cons_append, parseVal, skipWS_cons_not_ws (not_ws_of_digit hd)]
      dsimp only
      rw [if_neg (digit_ne hd (by decide)), if_neg (digit_ne hd (by decide)),
        if_neg (digit_ne hd (by decide)), if_neg (digit_ne hd (by decide)),
        if_neg (digit_ne hd (by decide)), if_neg (digit_ne hd (by decide)),
        if_neg (digit_ne hd (by decide)), if_pos hd]
      rw [show d :: (ds ++ rest) = natDigits n.natAbs ++ rest by rw [hds, List.cons_append]]
      rw [parseNatTok_digits (natDigits n.natAbs) rest hspec.2.2 hspec.1 hnd]
      dsimp only
      rw [hspec.2.1, show ((n.natAbs : Int)) = n by omega]
  | bool b =>
    intro ind fuel rest hnd hb
    rcases fuel with _ | f
    · exact absurd hb (by omega)
    cases b with
    | true => rfl
    | false => rfl
  | null =>
    intro ind fuel rest hnd hb
    rcases fuel with _ | f
    · exact absurd hb (by omega)
    rfl
  | arr xs hxs =>
    intro ind fuel rest hnd hb
    rcases fuel with _ | f
    · exact absurd hb (by omega)
    cases xs with
    | nil => rfl
    | cons x t =>
      have hlb := serVal_arr_cons_length ind x t
      simp only [serVal, List.cons_append, List.append_assoc, List.singleton_append,
        List.nil_append]
      rw [parseVal, skipWS_cons_not_ws (by decide)]
      dsimp only
      rw [if_neg (show ¬('[' : Char) = '"' by decide),
        if_neg (show ¬('[' : Char) = '\x7b' by decide),
        if_pos (show ('[' : Char) = '[' from rfl)]
      obtain ⟨c₀, t₀, hct, hws, hne1, hne2⟩ := serVal_head (ind + 2) x
      rw [show skipWS ('\n' :: (indentChars (ind + 2) ++ (serVal (ind + 2) x ++
          (serItems (ind + 2) t ++ '\n' :: (indentChars ind ++ ']' :: rest))))) =
          c₀ :: (t₀ ++ (serItems (ind + 2) t ++ '\n' :: (indentChars ind ++ ']' :: rest)))
        by rw [skipWS_cons_ws (by decide), skipWS_indent, hct, List.cons_append,
          skipWS_cons_not_ws hws]]
      dsimp only
      rw [if_neg hne1]
      have hbnd : (serVal (ind + 2) x).length + (serItems (ind + 2) t).length + 1 < f := by
        omega
      rw [parseItems_ser x t (hxs x (List.mem_cons_self _ _))
        (fun y hy => hxs y (List.mem_cons_of_mem _ hy)) (ind + 2) (ind + 2) ind f rest hbnd]
  | obj ps hnd hpw hvals =>
    intro ind fuel rest hndr hb
    rcases fuel with _ | f
    · exact absurd hb (by omega)
    cases ps with
    | nil => rfl
    | cons p t =>
      have hlb := serVal_obj_cons_length ind p t
      simp only [serVal, List.cons_append, List.append_assoc, List.singleton_append,
        List.nil_append]
      rw [parseVal, skipWS_cons_not_ws (by decide)]
      dsimp only
      rw [if_neg (show ¬('\x7b' : Char) = '"' by decide),
        if_pos (show ('\x7b' : Char) = '\x7b' from rfl)]
      rw [show skipWS ('\n' :: (indentChars (ind + 2) ++ (serMember (ind + 2) p ++
          (serMembers (ind + 2) t ++ '\n' :: (indentChars ind ++ '\x7d' :: rest))))) =
          '"' :: (p.1.data.flatMap escChar ++ ('"' :: ':' :: ' ' :: (serVal (ind + 2) p.2 ++
            (serMembers (ind + 2) t ++ '\n' :: (indentChars ind ++ '\x7d' :: rest)))))
        by rw [skipWS_cons_ws (by decide), skipWS_indent, serMember_head, List.cons_append,
          skipWS_cons_not_ws (by decide)]
           simp only [List.append_assoc, List.cons_append]]
      dsimp only
      rw [if_neg (show ¬('"' : Char) = '\x7d' by decide)]
      have hbnd : (serMember (ind + 2) p).length + (serMembers (ind + 2) t).length < f := by
        omega
      rw [parseMembers_ser p t (hvals p (List.mem_cons_self _ _))
        (fun q hq => hvals q (List.mem_cons_of_mem _ hq)) (ind + 2) (ind + 2) ind f rest hbnd]
      dsimp only
      rw [insertAll_nil_self _ hnd hpw]
termination_by sizeOf v

theorem parseMembers_ser (p : String × Json) (ps : List (String × Json)) (wfp : JsonWF p.2)
    (wfps : ∀ q ∈ ps, JsonWF q.2) : ∀ (m ind ind₀ fuel : Nat) (rest : List Char),
    (serMember ind p).length + (serMembers ind ps).length < fuel →
    parseMembers fuel ('\n' :: (indentChars m ++ (serMember ind p ++ (serMembers ind ps ++
      ('\n' :: (indentChars ind₀ ++ ('\x7d' :: rest))))))) = some (p :: ps, rest) := by
  intro m ind ind₀ fuel rest hb
  rcases fuel with _ | f
  · exact absurd hb (by omega)
  have hlm := serMember_length ind p
  rw [parseMembers]
  rw [show skipWS ('\n' :: (indentChars m ++ (serMember ind p ++ (serMembers ind ps ++
      ('\n' :: (indentChars ind₀ ++ ('\x7d' :: rest))))))) =
      '"' :: (p.1.data.flatMap escChar ++ ('"' :: ':' :: ' ' :: (serVal ind p.2 ++
        (serMembers ind ps ++ ('\n' :: (indentChars ind₀ ++ ('\x7d' :: rest)))))))
    by rw [skipWS_cons_ws (by decide), skipWS_indent, serMember_head, List.cons_append,
      skipWS_cons_not_ws (by decide)]
       simp only [List.append_assoc, List.cons_append]]
  dsimp only
  rw [if_pos rfl]
  have hf : p.1.data.length <
      (p.1.data.flatMap escChar ++ ('"' :: ':' :: ' ' :: (serVal ind p.2 ++
        (serMembers ind ps ++ ('\n' :: (indentChars ind₀ ++
          ('\x7d' :: rest))))))).length + 1 := by
    have := length_le_flatMap_esc p.1.data
    simp only [List.length_append, List.length_cons]
    omega
  rw [parseStringBody_esc p.1.data _ hf (':' :: ' ' :: (serVal ind p.2 ++
    (serMembers ind ps ++ ('\n' :: (indentChars ind₀ ++ ('\x7d' :: rest))))))]
  dsimp only
  rw [skipWS_cons_not_ws (by decide)]
  dsimp only
  rw [if_pos rfl]
  rw [parseVal_congr_ws f (skipWS_cons_ws (by decide) (serVal ind p.2 ++
    (serMembers ind ps ++ ('\n' :: (indentChars ind₀ ++ ('\x7d' :: rest))))))]
  have hbv : (serVal ind p.2).length < f := by omega
  rw [parseVal_ser p.2 wfp ind f (serMembers ind ps ++ ('\n' :: (indentChars ind₀ ++
    ('\x7d' :: rest)))) (noDigitHead_serMembers ind ps _) hbv]
  dsimp only
  cases hps : ps with
  | nil =>
    simp only [serMembers, List.nil_append]
    rw [skipWS_cons_ws (by decide), skipWS_indent, skipWS_cons_not_ws (by decide)]
    dsimp only
    rw [if_neg (show ¬('\x7d' : Char) = ',' by decide),
      if_pos (show ('\x7d' : Char) = '\x7d' from rfl)]
  | cons q qs =>
    rw [hps] at hb wfps
    have hlc := serMembers_cons_length ind q qs
    simp only [serMembers, List.cons_append, List.append_assoc]
    rw [skipWS_cons_not_ws (by decide)]
    dsimp only
    rw [if_pos (show (',' : Char) = ',' from rfl)]
    have hbq : (serMember ind q).length + (serMembers ind qs).length < f := by omega
    rw [parseMembers_ser q qs (wfps q (List.mem_cons_self _ _))
      (fun r hr => wfps r (List.mem_cons_of_mem _ hr)) ind ind ind₀ f rest hbq]
termination_by 1 + sizeOf p + sizeOf ps
decreasing_by
  all_goals simp_wf
  all_goals (try subst hps)
  all_goals (try simp)
  all_goals (have hsz := sizeOf_snd_lt_pair p; omega)

theorem parseItems_ser (x : Json) (xs : List Json) (wfx : JsonWF x)
    (wfxs : ∀ y ∈ xs, JsonWF y) : ∀ (m ind ind₀ fuel : Nat) (rest : List Char),
    (serVal ind x).length + (serItems ind xs).length + 1 < fuel →
    parseItems fuel ('\n' :: (indentChars m ++ (serVal ind x ++ (serItems ind xs ++
      ('\n' :: (indentChars ind₀ ++ (']' :: rest))))))) = some (x :: xs, rest) := by
  intro m ind ind₀ fuel rest hb
  rcases fuel with _ | f
  · exact absurd hb (by omega)
  rw [parseItems]
  rw [parseVal_congr_ws f (show skipWS ('\n' :: (indentChars m ++ (serVal ind x ++
      (serItems ind xs ++ ('\n' :: (indentChars ind₀ ++ (']' :: rest))))))) =
      skipWS (serVal ind x ++ (serItems ind xs ++ ('\n' :: (indentChars ind₀ ++
        (']' :: rest)))))
    by rw [skipWS_cons_ws (by decide), skipWS_indent])]
  have hbx : (serVal ind x).length < f := by omega
  rw [parseVal_ser x wfx ind f (serItems ind xs ++ ('\n' :: (indentChars ind₀ ++
    (']' :: rest)))) (noDigitHead_serItems ind xs _) hbx]
  dsimp only
  cases hxs2 : xs with
  | nil =>
    simp only [serItems, List.nil_append]
    rw [skipWS_cons_ws (by decide), skipWS_indent, skipWS_cons_not_ws (by decide)]
    dsimp only
    rw [if_neg (show ¬(']' : Char) = ',' by decide),
      if_pos (show (']' : Char) = ']' from rfl)]
  | cons q qs =>
    rw [hxs2] at hb wfxs
    have hlc := serItems_cons_length ind q qs
    simp only [serItems, List.cons_append, List.append_assoc]
    rw [skipWS_cons_not_ws (by decide)]
    dsimp only
    rw [if_pos (show (',' : Char) = ',' from rfl)]
    have hbq : (serVal ind q).length + (serItems ind qs).length + 1 < f := by omega
    rw [parseItems_ser q qs (wfxs q (List.mem_cons_self _ _))
      (fun y hy => wfxs y (List.mem_cons_of_mem _ hy)) ind ind ind₀ f rest hbq]
termination_by 1 + sizeOf x + sizeOf xs
decreasing_by
  all_goals simp_wf
  all_goals (try subst hxs2)
  all_goals (try simp)
  all_goals omega
end

/-! ## Claim C7: the round-trip theorem -/

/-- Claim C7: manifest persistence round-trips exactly.  For every
manifest value expressible in the supported field types - a `Json`
value whose object nodes are well-formed JavaScript property tables
(`JsonWF`: distinct keys in own-property enumeration order, which
every value the generator builds satisfies and every actual JavaScript
object satisfies by construction) - writing it to disk as
pretty-printed JSON with 2-space indent (`jsonWrite`, the
`JSON.stringify(m, null, 2)` of the source) and reading it back
(`jsonRead`, the source's `JSON.parse`) yields a value equal to the
one written: `read(write(m)) = m`. -/
theorem claim_C7_roundtrip (m : Json) (hwf : JsonWF m) :
    jsonRead (jsonWrite m) = some m := by
  unfold jsonRead jsonWrite
  have h := parseVal_ser m hwf 0 ((serVal 0 m).length + 1) [] rfl (by omega)
  rw [List.append_nil] at h
  rw [h]
  rfl

/-- Claim C7 witness: the round trip holds at a concrete well-formed
manifest exercising every supported field type. -/
theorem claim_C7_roundtrip_witness :
    JsonWF manifestExample ∧ jsonRead (jsonWrite manifestExample) = some manifestExample := by
  have hscripts : JsonWF (Json.obj [("build", Json.str "tsc"), ("dev", Json.str "run-p dev:*"),
      ("lint", Json.str "eslint . --ext .ts")]) := by
    refine JsonWF.obj _ (by decide) (by decide) ?_
    intro q hq
    simp only [List.mem_cons, List.not_mem_nil, or_false] at hq
    rcases hq with rfl | rfl | rfl <;> exact JsonWF.str _
  have harr : JsonWF (Json.arr [Json.str "MIT", Json.num 2024]) := by
    refine JsonWF.arr _ ?_
    intro y hy
    simp only [List.mem_cons, List.not_mem_nil, or_false] at hy
    rcases hy with rfl | rfl
    · exact JsonWF.str _
    · exact JsonWF.num _
  have hwf : JsonWF manifestExample := by
    unfold manifestExample
    refine JsonWF.obj _ (by decide) (by decide) ?_
    intro q hq
    simp only [List.mem_cons, List.not_mem_nil, or_false] at hq
    rcases hq with rfl | rfl | rfl | rfl | rfl | rfl | rfl | rfl
    · exact JsonWF.str _
    · exact JsonWF.str _
    · exact JsonWF.str _
    · exact hscripts
    · exact JsonWF.bool _
    · exact harr
    · exact JsonWF.null
    · exact JsonWF.num _
  exact ⟨hwf, claim_C7_roundtrip manifestExample hwf⟩

end JsGen
